import Mathlib

/-!
Verification of `mathexp.py`, a parser and evaluator for arithmetic
expressions.  Strings are embedded as `List Char`; Python floats are
embedded as exact rationals (`ℚ`), with the operations that can raise in
Python (float division by zero, `fact` on a bad argument, missing dict
keys, indexing an empty string) made explicit through `Except PyErr`.
The transcendental functions of Python's `math` module (`sin`, `cos`,
...) are external to the repository, so the evaluator is parameterised
by an interpretation of them (`MathLib`); `abs` and `fact` are defined
concretely from the source.  Python's float power `**` is modelled by
`qpow`, which is exact on integer exponents and signals
`.nonRepresentable` outside the rational fragment.
-/

deriving instance DecidableEq for Except

attribute [local semireducible] Rat.add Rat.mul Rat.sub Rat.inv

namespace Mathexp

/-- Errors a call into the module can surface.  `malformedExpression`,
`expressionParsing`, `symbolNotFound` model the module's own
`raise Exception(...)` calls; `invalidArgument` models the exception
raised by `fact`; `zeroDivisionError`, `keyError` and `indexError`
model the corresponding untyped Python runtime errors;
`nonRepresentable` marks a float power that leaves the exact rational
model; `outOfFuel` is an artifact of the fuel-based embedding of the
recursive constructor and is proven unreachable. -/
inductive PyErr where
  | malformedExpression
  | expressionParsing
  | symbolNotFound (name : List Char)
  | invalidArgument
  | zeroDivisionError
  | keyError (name : List Char)
  | indexError
  | nonRepresentable
  | outOfFuel
deriving DecidableEq, Repr

/-- Token type of an operator node, from `is_operator` in the source. -/
def is_operator (c : Char) : Bool :=
  c == '^' || c == '*' || c == '/' || c == '+' || c == '-'

/-- The priority table `OPERATOR_PRIORITY` from the source; characters
outside the table (never queried by the module) get a default of 0. -/
def OPERATOR_PRIORITY (c : Char) : Int :=
  if c == '^' then -1
  else if c == '*' then -2
  else if c == '/' then -2
  else if c == '+' then -3
  else if c == '-' then -3
  else 0

/-- Scanning loop of `parens_are_balanced`: updates the depth counter per
character and fails as soon as it goes negative. -/
def pabAux : List Char → Int → Bool
  | [], i => i == 0
  | c :: rest, i =>
    let i' := if c == '(' then i + 1 else if c == ')' then i - 1 else i
    if i' < 0 then false else pabAux rest i'

/-- `parens_are_balanced` from the source. -/
def parens_are_balanced (exp : List Char) : Bool :=
  pabAux exp 0

/-- Depth change contributed by one character. -/
def depthStep (d : Int) (c : Char) : Int :=
  if c == '(' then d + 1 else if c == ')' then d - 1 else d

/-- Parenthesis depth after scanning a fragment starting at depth `d`. -/
def depthAfter (l : List Char) (d : Int) : Int :=
  l.foldl depthStep d

/-- Whether the running depth stays nonnegative after every character of
the fragment when starting at depth `d`. -/
def neverNeg : List Char → Int → Bool
  | [], _ => true
  | c :: rest, d =>
    let d' := depthStep d c
    if d' < 0 then false else neverNeg rest d'

/-- One stripping condition of `remove_extra_parens`: the string starts
with `(`, ends with `)`, and the interior is balanced. -/
def stripCond (e : List Char) : Bool :=
  e.head? == some '(' && e.getLast? == some ')'
    && parens_are_balanced (e.drop 1).dropLast

/-- Fuelled while-loop of `remove_extra_parens`; each iteration strips a
matching outer parenthesis pair, shortening the string by two, so fuel
`e.length` always suffices. -/
def repAux : Nat → List Char → List Char
  | 0, e => e
  | k + 1, e => if stripCond e then repAux k (e.drop 1).dropLast else e

/-- `remove_extra_parens` from the source. -/
def remove_extra_parens (e : List Char) : List Char :=
  repAux e.length e

/-- Iterated multiplication, used to keep powers of rationals inside the
kernel-reducible fragment. -/
def powNat (a : ℚ) : Nat → ℚ
  | 0 => 1
  | n + 1 => powNat a n * a

/-- Integer power of ten, for the exponent part of a float literal. -/
def pow10 (e : Int) : ℚ :=
  if 0 ≤ e then powNat 10 e.toNat else (powNat 10 e.natAbs)⁻¹

/-- Numeric value of a digit character. -/
def charVal (c : Char) : Nat := c.toNat - 48

/-- Value of a big-endian digit string. -/
def digitsToNat (l : List Char) : Nat :=
  l.foldl (fun a c => 10 * a + charVal c) 0

/-- Splits a list at the first character satisfying `p`, returning the
parts before and after it, or `none` if no character matches. -/
def splitFirst (p : Char → Bool) : List Char → Option (List Char × List Char)
  | [] => none
  | c :: rest =>
    if p c then some ([], rest)
    else (splitFirst p rest).map (fun q => (c :: q.1, q.2))

/-- Parses a nonempty unsigned digit string. -/
def parseUint? (l : List Char) : Option Nat :=
  if l.isEmpty then none
  else if l.all (·.isDigit) then some (digitsToNat l) else none

/-- Parses the mantissa part of a float literal: digits with an optional
decimal point, at least one digit overall. -/
def parseMantissa? (l : List Char) : Option ℚ :=
  match splitFirst (fun c => c == '.') l with
  | none => (parseUint? l).map (fun n => (n : ℚ))
  | some q =>
    if q.1.isEmpty && q.2.isEmpty then none
    else if q.1.all (·.isDigit) && q.2.all (·.isDigit) then
      some ((digitsToNat (q.1 ++ q.2) : ℚ) / powNat 10 q.2.length)
    else none

/-- Parses an optionally signed exponent. -/
def parseExponent? (l : List Char) : Option Int :=
  if l.head? == some '+' then (parseUint? l.tail).map (fun n => (n : Int))
  else if l.head? == some '-' then (parseUint? l.tail).map (fun n => -(n : Int))
  else (parseUint? l).map (fun n => (n : Int))

/-- Model of Python's `float(...)` string conversion on the decimal
grammar `[sign] digits [. digits] [e [sign] digits]` (the `inf`, `nan`
and underscore forms accepted by CPython are outside the model; no
token the module ever produces uses them). -/
def parse_float? (s : List Char) : Option ℚ :=
  let sg : ℚ := if s.head? == some '-' then -1 else 1
  let s1 := if s.head? == some '+' || s.head? == some '-' then s.tail else s
  match splitFirst (fun c => c == 'e' || c == 'E') s1 with
  | none => (parseMantissa? s1).map (fun m => sg * m)
  | some q =>
    match parseMantissa? q.1, parseExponent? q.2 with
    | some m, some e => some (sg * m * pow10 e)
    | _, _ => none

/-- `is_number` from the source: whether `float(token)` succeeds. -/
def is_number (l : List Char) : Bool :=
  (parse_float? l).isSome

/-- Numeric value of a token for which `is_number` holds. -/
def parse_float (l : List Char) : ℚ :=
  (parse_float? l).getD 0

/-- `fact` from the source.  The guard `num % 1 != 0 or num < 0` (the
argument is not integral, or is negative) becomes `num.den ≠ 1 ∨ num < 0`
on exact rationals; the accumulation loop multiplies `res` by each of
`1, ..., num`. -/
def fact (num : ℚ) : Except PyErr ℚ :=
  if num.den ≠ 1 ∨ num < 0 then .error .invalidArgument
  else
    let n := num.num.toNat
    if n = 0 ∨ n = 1 then .ok 1
    else .ok (((List.range' 1 n).foldl (fun res i => res * i) 1 : Nat) : ℚ)

/-- Interpretation of the functions the module takes from Python's
`math` library; they are external code, so the embedding abstracts them
as rational-valued partial functions (they can raise `ValueError` on
domain errors, hence `Except`). -/
structure MathLib where
  sin : ℚ → Except PyErr ℚ
  cos : ℚ → Except PyErr ℚ
  tan : ℚ → Except PyErr ℚ
  asin : ℚ → Except PyErr ℚ
  acos : ℚ → Except PyErr ℚ
  atan : ℚ → Except PyErr ℚ
  ln : ℚ → Except PyErr ℚ
  log10 : ℚ → Except PyErr ℚ

/-- Keys of `FUNCTION_LIST`, in the dict's insertion order (the order
`get_function` iterates in). -/
def FUNCTION_NAMES : List (List Char) :=
  [['s','i','n'], ['c','o','s'], ['t','a','n'], ['a','s','i','n'],
   ['a','c','o','s'], ['a','t','a','n'], ['l','n'], ['l','o','g'],
   ['a','b','s'], ['f','a','c','t']]

/-- Association-list lookup, first match (Python dict keys are unique). -/
def alist_get {α : Type} : List (List Char × α) → List Char → Option α
  | [], _ => none
  | p :: rest, k => if p.1 = k then some p.2 else alist_get rest k

/-- `FUNCTION_LIST` from the source, with the `math`-library entries
taken from the abstract interpretation `M` and `abs`/`fact` concrete. -/
def FUNCTION_LIST (M : MathLib) : List (List Char × (ℚ → Except PyErr ℚ)) :=
  [(['s','i','n'], M.sin), (['c','o','s'], M.cos), (['t','a','n'], M.tan),
   (['a','s','i','n'], M.asin), (['a','c','o','s'], M.acos),
   (['a','t','a','n'], M.atan), (['l','n'], M.ln), (['l','o','g'], M.log10),
   (['a','b','s'], fun q => .ok |q|), (['f','a','c','t'], fact)]

/-- Whether `pre` is an initial segment of `s`. -/
def starts_with : List Char → List Char → Bool
  | [], _ => true
  | _ :: _, [] => false
  | p :: ps, x :: xs => p == x && starts_with ps xs

/-- Loop body of `get_function`.  Note the faithful modelling of the
source's reassignment `exp = exp[len(function)+1:-1]` inside the loop:
when a name matches as a prefix/suffix but the interior is unbalanced,
later names are tested against the truncated string. -/
def get_function_aux : List (List Char) → List Char → Option (List Char)
  | [], _ => none
  | f :: fs, exp =>
    if starts_with (f ++ ['(']) exp && exp.getLast? == some ')' then
      let exp' := (exp.drop (f.length + 1)).dropLast
      if parens_are_balanced exp' then some f
      else get_function_aux fs exp'
    else get_function_aux fs exp

/-- `get_function` from the source. -/
def get_function (exp : List Char) : Option (List Char) :=
  get_function_aux FUNCTION_NAMES exp

/-- Model of Python float `**`.  Exact for integer exponents (raising
`ZeroDivisionError` for `0.0 ** negative`, as Python does); a fractional
exponent generally produces an irrational or complex value, which the
rational model marks `.nonRepresentable`. -/
def qpow (a b : ℚ) : Except PyErr ℚ :=
  if b.den = 1 then
    if a = 0 ∧ b < 0 then .error .zeroDivisionError
    else if 0 ≤ b.num then .ok (powNat a b.num.toNat)
    else .ok ((powNat a b.num.natAbs)⁻¹)
  else .error .nonRepresentable

/-- `evaluate_operator` from the source.  Python float division by zero
raises `ZeroDivisionError`, hence the explicit test on `/`. -/
def evaluate_operator (token : Char) (arg1 arg2 : ℚ) : Except PyErr ℚ :=
  if token == '^' then qpow arg1 arg2
  else if token == '*' then .ok (arg1 * arg2)
  else if token == '/' then
    (if arg2 = 0 then .error .zeroDivisionError else .ok (arg1 / arg2))
  else if token == '+' then .ok (arg1 + arg2)
  else if token == '-' then .ok (arg1 - arg2)
  else .error .expressionParsing

/-- `exp_check` from the source: balance check, whitespace removal,
redundant-parenthesis stripping, leading/trailing operator checks, and
normalisation of a leading sign.  Accessing `exp[0]` when the processed
string is empty raises Python's `IndexError`. -/
def exp_check (exp : List Char) : Except PyErr (List Char) :=
  if !(parens_are_balanced exp) then .error .malformedExpression
  else
    let e := remove_extra_parens (exp.filter (fun c => !(c == ' ')))
    match e with
    | [] => .error .indexError
    | first :: rest =>
      if is_operator first && !(first == '+') && !(first == '-') then
        .error .malformedExpression
      else if is_operator ((first :: rest).getLastD ' ') then
        .error .malformedExpression
      else if first == '-' then .ok ('0' :: first :: rest)
      else if first == '+' then .ok rest
      else .ok (first :: rest)

/-- Scanning loop of `lookup_top_operator`; `exp` is the full string (for
the bound and previous-character tests), the second argument the not yet
scanned remainder, `i` the current index, `level` the parenthesis depth,
and `pos` the best split position so far (`-1` when none). -/
def ltoAux (exp : List Char) : List Char → Nat → Int → Int → Int
  | [], _, _, pos => pos
  | c :: rest, i, level, pos =>
    if c == '(' then ltoAux exp rest (i + 1) (level + 1) pos
    else if c == ')' then ltoAux exp rest (i + 1) (level - 1) pos
    else if !(is_operator c) then ltoAux exp rest (i + 1) level pos
    else if level ≠ 0 then ltoAux exp rest (i + 1) level pos
    else if i = 0 ∨ i = exp.length - 1 then ltoAux exp rest (i + 1) level pos
    else if (c == '+' || c == '-') && is_operator (exp.getD (i - 1) ' ') then
      ltoAux exp rest (i + 1) level pos
    else if pos = -1 then ltoAux exp rest (i + 1) level (i : Int)
    else if OPERATOR_PRIORITY c ≤ OPERATOR_PRIORITY (exp.getD pos.toNat ' ') then
      ltoAux exp rest (i + 1) level (i : Int)
    else ltoAux exp rest (i + 1) level pos

/-- `lookup_top_operator` from the source. -/
def lookup_top_operator (exp : List Char) : Int :=
  ltoAux exp exp 0 0 (-1)

/-- Expression tree built by `MathExp.__init__`: a literal leaf, a unary
function application, or a binary operator node. -/
inductive Tree where
  | literal (token : List Char)
  | func (name : List Char) (arg : Tree)
  | op (token : Char) (left : Tree) (right : Tree)
deriving DecidableEq, Repr

/-- Recursive body of `MathExp.__init__`, with explicit fuel (each
recursive call is on a strictly shorter string, so fuel `length + 1`
suffices; see `buildF_error_cases`). -/
def buildF : Nat → List Char → Except PyErr Tree
  | 0, _ => .error .outOfFuel
  | n + 1, exp =>
    match exp_check exp with
    | .error e => .error e
    | .ok e =>
      match get_function e with
      | some f =>
        match buildF n ((e.drop (f.length + 1)).dropLast) with
        | .error err => .error err
        | .ok t => .ok (.func f t)
      | none =>
        let pos := lookup_top_operator e
        if 0 ≤ pos then
          match buildF n (e.take pos.toNat) with
          | .error err => .error err
          | .ok l =>
            match buildF n (e.drop (pos.toNat + 1)) with
            | .error err => .error err
            | .ok r => .ok (.op (e.getD pos.toNat ' ') l r)
        else .ok (.literal e)

/-- Tree construction of `MathExp.__init__`. -/
def build (s : List Char) : Except PyErr Tree :=
  buildF (s.length + 1) s

/-- State of a `MathExp` object: the parsed tree (immutable after
construction) and the stored variable table. -/
structure MathExp where
  tree : Tree
  variables_table : List (List Char × ℚ)
deriving DecidableEq, Repr

/-- Constructing a `MathExp` object: `__init__` starts from an empty
variable table and parses the expression string. -/
def mathexp (s : List Char) : Except PyErr MathExp :=
  match build s with
  | .error e => .error e
  | .ok t => .ok ⟨t, []⟩

/-- Recursive body of `MathExp.evaluate` over the tree, reading literals
via `float(...)` or the variable table, applying registry functions, and
combining operator nodes with `evaluate_operator` (left operand first,
as in the source). -/
def Tree.evaluate (M : MathLib) (table : List (List Char × ℚ)) :
    Tree → Except PyErr ℚ
  | .literal tok =>
    if is_number tok then .ok (parse_float tok)
    else
      match alist_get table tok with
      | none => .error (.symbolNotFound tok)
      | some v => .ok v
  | .func name arg =>
    match Tree.evaluate M table arg with
    | .error e => .error e
    | .ok a =>
      match alist_get (FUNCTION_LIST M) name with
      | none => .error (.keyError name)
      | some f => f a
  | .op tok l r =>
    match Tree.evaluate M table l with
    | .error e => .error e
    | .ok x =>
      match Tree.evaluate M table r with
      | .error e => .error e
      | .ok y => evaluate_operator tok x y

/-- `MathExp.evaluate`: the transient table argument (Python's
`tmp_variables_table=None` default) selects the table for this call;
the method never assigns to `self`, so the object state it returns is
the one it was called on. -/
def MathExp.evaluate (M : MathLib) (m : MathExp)
    (tmp : Option (List (List Char × ℚ))) : Except PyErr ℚ × MathExp :=
  let table := match tmp with
    | none => m.variables_table
    | some t => t
  (Tree.evaluate M table m.tree, m)

/-- `MathExp.add_variable` from the source: dict assignment replaces an
existing key's value or appends a new key. -/
def dict_set : List (List Char × ℚ) → List Char → ℚ → List (List Char × ℚ)
  | [], k, v => [(k, v)]
  | p :: rest, k, v =>
    if p.1 = k then (k, v) :: rest else p :: dict_set rest k v

/-- `MathExp.add_variable` from the source. -/
def MathExp.add_variable (m : MathExp) (k : List Char) (v : ℚ) : MathExp :=
  ⟨m.tree, dict_set m.variables_table k v⟩

/-- Removal of the first entry with the given key, `none` if absent
(Python `dict.pop` with no default raises `KeyError` then). -/
def dict_pop : List (List Char × ℚ) → List Char → Option (List (List Char × ℚ))
  | [], _ => none
  | p :: rest, k =>
    if p.1 = k then some rest
    else (dict_pop rest k).map (fun t => p :: t)

/-- `MathExp.remove_variable` from the source: `self.variables_table.pop(key)`
raises `KeyError` when the key is absent (leaving the table as it was);
the pair returned is (raised error if any, object state after the call). -/
def MathExp.remove_variable (m : MathExp) (k : List Char) :
    Option PyErr × MathExp :=
  match dict_pop m.variables_table k with
  | none => (some (.keyError k), m)
  | some t => (none, ⟨m.tree, t⟩)

/-- `MathExp.get_variable` from the source: dict indexing raises
`KeyError` when absent. -/
def MathExp.get_variable (m : MathExp) (k : List Char) : Except PyErr ℚ :=
  match alist_get m.variables_table k with
  | none => .error (.keyError k)
  | some v => .ok v

/-- `MathExp.set_variables_table` from the source. -/
def MathExp.set_variables_table (m : MathExp)
    (t : List (List Char × ℚ)) : MathExp :=
  ⟨m.tree, t⟩

/-- Constructing from a string and then evaluating with the given
transient table (or the freshly constructed object's empty stored table
when `none`). -/
def eval_with (M : MathLib) (s : List Char)
    (tmp : Option (List (List Char × ℚ))) : Except PyErr ℚ :=
  match mathexp s with
  | .error e => .error e
  | .ok m => (MathExp.evaluate M m tmp).1

/-- An arbitrary concrete interpretation of the `math` library, used to
instantiate closed statements whose truth does not depend on the
interpretation (the expressions involved either call no library
function, or call one only at an argument pinned by a hypothesis). -/
def zeroLib : MathLib :=
  ⟨fun _ => .ok 0, fun _ => .ok 0, fun _ => .ok 0, fun _ => .ok 0,
   fun _ => .ok 0, fun _ => .ok 0, fun _ => .ok 0, fun _ => .ok 0⟩

/-- Running count of `(` minus `)`, the quantity the specification's
description of parenthesis imbalance is phrased in. -/
def runningCount (l : List Char) : Int :=
  (l.count '(' : Int) - (l.count ')' : Int)

/-- Whether a fragment contains no parenthesis characters. -/
def parenFree (l : List Char) : Bool :=
  l.all (fun c => !(c == '(') && !(c == ')'))

/-- Whether every operator character at parenthesis depth 0 of the
fragment (scanned starting from depth `d`) has priority at least `P`. -/
def topOpsGE (P : Int) : List Char → Int → Bool
  | [], _ => true
  | c :: rest, d =>
    if c == '(' then topOpsGE P rest (d + 1)
    else if c == ')' then topOpsGE P rest (d - 1)
    else if is_operator c && d == 0 then
      decide (P ≤ OPERATOR_PRIORITY c) && topOpsGE P rest d
    else topOpsGE P rest d

/-- Whether every operator character at parenthesis depth 0 of the
fragment has priority strictly greater than `P`. -/
def topOpsGT (P : Int) : List Char → Int → Bool
  | [], _ => true
  | c :: rest, d =>
    if c == '(' then topOpsGT P rest (d + 1)
    else if c == ')' then topOpsGT P rest (d - 1)
    else if is_operator c && d == 0 then
      decide (P < OPERATOR_PRIORITY c) && topOpsGT P rest d
    else topOpsGT P rest d

/-- Binary operators of the reference arithmetic grammar. -/
inductive Aop where
  | add | sub | mul | div | pw
deriving DecidableEq, Repr

/-- Source character of a reference operator. -/
def Aop.char : Aop → Char
  | .add => '+'
  | .sub => '-'
  | .mul => '*'
  | .div => '/'
  | .pw => '^'

/-- Modelled from the spec: precedence level of an operator in standard
operator-precedence arithmetic — additive operators bind weakest (1),
then multiplicative (2), then exponentiation (3). -/
def Aop.lvl : Aop → Nat
  | .add => 1
  | .sub => 1
  | .mul => 2
  | .div => 2
  | .pw => 3

/-- Modelled from the spec: the arithmetic meaning of each operator,
over the same exact-rational value model as the evaluator (so that the
comparison is between parse results, not number representations). -/
def Aop.denote : Aop → ℚ → ℚ → Except PyErr ℚ
  | .add, x, y => .ok (x + y)
  | .sub, x, y => .ok (x - y)
  | .mul, x, y => .ok (x * y)
  | .div, x, y => if y = 0 then .error .zeroDivisionError else .ok (x / y)
  | .pw, x, y => qpow x y

/-- Modelled from the spec: abstract syntax of a "balanced-parenthesis
string reducible to an operator chain" — nonnegative numeric literals
combined with the five binary operators. -/
inductive Arith where
  | num (n : Nat)
  | bin (o : Aop) (l : Arith) (r : Arith)
deriving DecidableEq, Repr

/-- Modelled from the spec: evaluating an expression by standard
operator-precedence arithmetic, i.e. evaluating the abstract tree whose
grouping the precedence rules dictate. -/
def Arith.eval : Arith → Except PyErr ℚ
  | .num n => .ok n
  | .bin o l r =>
    match Arith.eval l with
    | .error e => .error e
    | .ok x =>
      match Arith.eval r with
      | .error e => .error e
      | .ok y => o.denote x y

/-- Precedence level of the top construct of a reference expression;
literals are atomic (level 4, above every operator). -/
def Arith.level : Arith → Nat
  | .num _ => 4
  | .bin o _ _ => o.lvl

/-- Priority (the code's `OPERATOR_PRIORITY` scale) corresponding to a
precedence level. -/
def prioOfLevel : Nat → Int
  | 1 => -3
  | 2 => -2
  | 3 => -1
  | _ => 0

/-- Decimal digit string of a natural number, most significant first. -/
def ppNum (n : Nat) : List Char :=
  if n = 0 then ['0'] else (Nat.digits 10 n).reverse.map Nat.digitChar

/-- Wraps a string in parentheses when `b` holds. -/
def wrapIf (b : Bool) (x : List Char) : List Char :=
  if b then '(' :: (x ++ [')']) else x

/-- Modelled from the spec: rendering a reference expression with the
minimal parenthesisation that standard operator precedence dictates — a
child is parenthesised exactly when its level is too weak for its
context, with the right operand's context one level tighter since
equal-priority chains associate to the left. -/
def ppArith : Arith → List Char
  | .num n => ppNum n
  | .bin o l r =>
    wrapIf (decide (Arith.level l < o.lvl)) (ppArith l)
      ++ o.char :: wrapIf (decide (Arith.level r < o.lvl + 1)) (ppArith r)

/-- The expression tree that mirrors the structure of a reference
expression. -/
def treeOf : Arith → Tree
  | .num n => .literal (ppNum n)
  | .bin o l r => .op o.char (treeOf l) (treeOf r)


theorem depthAfter_nil (d : Int) : depthAfter [] d = d := rfl

theorem depthAfter_cons (c : Char) (l : List Char) (d : Int) :
    depthAfter (c :: l) d = depthAfter l (depthStep d c) := rfl

theorem depthAfter_append (X Y : List Char) (d : Int) :
    depthAfter (X ++ Y) d = depthAfter Y (depthAfter X d) := by
  simp [depthAfter, List.foldl_append]

theorem depthAfter_add (l : List Char) (d k : Int) :
    depthAfter l (d + k) = depthAfter l d + k := by
  induction l generalizing d with
  | nil => rfl
  | cons c rest ih =>
    have hstep : depthStep (d + k) c = depthStep d c + k := by
      unfold depthStep
      split
      · omega
      · split <;> omega
    rw [depthAfter_cons, depthAfter_cons, hstep, ih]

theorem neverNeg_append (X Y : List Char) (d : Int) :
    neverNeg (X ++ Y) d = (neverNeg X d && neverNeg Y (depthAfter X d)) := by
  induction X generalizing d with
  | nil => simp [neverNeg, depthAfter]
  | cons c rest ih =>
    simp only [List.cons_append, neverNeg, depthAfter_cons]
    split
    · rfl
    · exact ih _

theorem neverNeg_mono (l : List Char) :
    ∀ d d' : Int, d ≤ d' → neverNeg l d = true → neverNeg l d' = true := by
  induction l with
  | nil => intro d d' _ _; rfl
  | cons c rest ih =>
    intro d d' hdd h
    have hstep : depthStep d c ≤ depthStep d' c := by
      unfold depthStep
      split
      · omega
      · split <;> omega
    simp only [neverNeg] at h ⊢
    split at h
    · exact absurd h (by simp)
    · rename_i hneg
      rw [if_neg (by omega)]
      exact ih _ _ hstep h

theorem neverNeg_le_depthAfter (l : List Char) :
    ∀ d : Int, 0 ≤ d → neverNeg l d = true → 0 ≤ depthAfter l d := by
  induction l with
  | nil => intro d hd _; exact hd
  | cons c rest ih =>
    intro d _ h
    simp only [neverNeg] at h
    split at h
    · exact absurd h (by simp)
    · rw [depthAfter_cons]
      exact ih _ (by omega) h

theorem pabAux_eq (l : List Char) :
    ∀ d : Int, pabAux l d = (neverNeg l d && (depthAfter l d == 0)) := by
  induction l with
  | nil => intro d; simp [pabAux, neverNeg, depthAfter]
  | cons c rest ih =>
    intro d
    simp only [pabAux, neverNeg, depthAfter_cons]
    have : (if c == '(' then d + 1 else if c == ')' then d - 1 else d)
        = depthStep d c := rfl
    rw [this]
    split
    · rfl
    · exact ih _

theorem parenFree_depthAfter (l : List Char) (h : parenFree l = true) :
    ∀ d : Int, depthAfter l d = d := by
  induction l with
  | nil => intro d; rfl
  | cons c rest ih =>
    intro d
    simp only [parenFree, List.all_cons, Bool.and_eq_true] at h
    have hstep : depthStep d c = d := by
      unfold depthStep
      rw [if_neg (by simpa using h.1.1), if_neg (by simpa using h.1.2)]
    rw [depthAfter_cons, hstep]
    exact ih (by simp [parenFree, h.2]) d

theorem parenFree_neverNeg (l : List Char) (h : parenFree l = true) :
    ∀ d : Int, 0 ≤ d → neverNeg l d = true := by
  induction l with
  | nil => intro d _; rfl
  | cons c rest ih =>
    intro d hd
    simp only [parenFree, List.all_cons, Bool.and_eq_true] at h
    have hstep : depthStep d c = d := by
      unfold depthStep
      rw [if_neg (by simpa using h.1.1), if_neg (by simpa using h.1.2)]
    simp only [neverNeg, hstep, if_neg (by omega : ¬ d < 0)]
    exact ih (by simp [parenFree, h.2]) d hd

theorem neverNeg_cons (c : Char) (l : List Char) (d : Int) :
    neverNeg (c :: l) d
      = if depthStep d c < 0 then false else neverNeg l (depthStep d c) := rfl

theorem pab_wrap (nm I : List Char) (hnm : parenFree nm = true)
    (hI : parens_are_balanced I = true) :
    parens_are_balanced (nm ++ '(' :: (I ++ [')'])) = true := by
  rw [parens_are_balanced, pabAux_eq] at hI ⊢
  simp only [Bool.and_eq_true, beq_iff_eq] at hI ⊢
  obtain ⟨hInn, hId⟩ := hI
  have hnm0 : depthAfter nm 0 = 0 := parenFree_depthAfter nm hnm 0
  have hI1 : depthAfter I 1 = 1 := by
    have h := depthAfter_add I 0 1
    rw [hId] at h; simpa using h
  have hstep : depthStep 0 '(' = 1 := rfl
  constructor
  · rw [neverNeg_append, hnm0, Bool.and_eq_true]
    refine ⟨parenFree_neverNeg nm hnm 0 le_rfl, ?_⟩
    rw [neverNeg_cons, hstep, if_neg (by omega), neverNeg_append, hI1,
      Bool.and_eq_true]
    exact ⟨neverNeg_mono I 0 1 (by omega) hInn, rfl⟩
  · rw [depthAfter_append, hnm0, depthAfter_cons, hstep, depthAfter_append, hI1]
    rfl

theorem alist_get_none_pop (t : List (List Char × ℚ)) (k : List Char)
    (h : alist_get t k = none) : dict_pop t k = none := by
  induction t with
  | nil => rfl
  | cons p rest ih =>
    simp only [alist_get] at h
    split at h
    · exact absurd h (by simp)
    · rename_i hne
      simp only [dict_pop, if_neg hne, ih h, Option.map_none']

/-- Claim C2 (counterexample): constructing `"1/0"` and evaluating does
raise — Python float division by zero raises `ZeroDivisionError` rather
than returning infinity or NaN. -/
theorem claim_C2_counterexample :
    eval_with zeroLib "1/0".toList none = .error .zeroDivisionError := by decide

/-- Claim C2 (amended): for every tree whose top node is a division
whose right operand evaluates to zero (the left operand evaluating
normally), evaluation raises `ZeroDivisionError` — the untyped error of
Python float division by zero — instead of returning infinity or NaN. -/
theorem claim_C2 (M : MathLib) (table : List (List Char × ℚ))
    (l r : Tree) (v : ℚ)
    (hl : Tree.evaluate M table l = .ok v)
    (hr : Tree.evaluate M table r = .ok 0) :
    Tree.evaluate M table (.op '/' l r) = .error .zeroDivisionError := by
  simp only [Tree.evaluate, hl, hr]
  simp [evaluate_operator]

theorem claim_C2_witness :
    Tree.evaluate zeroLib [] (.op '/' (.literal ['8']) (.literal ['0']))
      = .error .zeroDivisionError :=
  claim_C2 zeroLib [] (.literal ['8']) (.literal ['0']) 8 (by decide) (by decide)

/-- Claim C7: evaluating a literal leaf whose token is not numeric looks
the token up in the supplied binding — a bound token yields its value,
an unbound one fails with `SymbolNotFound` carrying the token; in
particular `"x+1"` with `x ↦ 4` yields `5` and with `x` unbound fails
with `SymbolNotFound "x"`. -/
theorem claim_C7 :
    (∀ (M : MathLib) (table : List (List Char × ℚ)) (tok : List Char) (v : ℚ),
        is_number tok = false → alist_get table tok = some v →
        Tree.evaluate M table (.literal tok) = .ok v)
    ∧ (∀ (M : MathLib) (table : List (List Char × ℚ)) (tok : List Char),
        is_number tok = false → alist_get table tok = none →
        Tree.evaluate M table (.literal tok) = .error (.symbolNotFound tok))
    ∧ eval_with zeroLib "x+1".toList (some [("x".toList, 4)]) = .ok 5
    ∧ eval_with zeroLib "x+1".toList none
        = .error (.symbolNotFound "x".toList) := by
  refine ⟨?_, ?_, by decide, by decide⟩
  · intro M table tok v h1 h2
    simp [Tree.evaluate, h1, h2]
  · intro M table tok h1 h2
    simp [Tree.evaluate, h1, h2]

theorem claim_C7_witness :
    Tree.evaluate zeroLib [(['x'], 4)] (.literal ['x']) = .ok 4 :=
  claim_C7.1 zeroLib [(['x'], 4)] ['x'] 4 (by decide) (by decide)

/-- Claim C8: `fact` accepts exactly the nonnegative integer-valued
arguments — any negative or non-integral argument fails with
`InvalidArgument`; in particular `"fact(3)"` evaluates to `6` and
`"fact(-1)"` fails with `InvalidArgument`. -/
theorem claim_C8 :
    (∀ q : ℚ, (q.den ≠ 1 ∨ q < 0) → fact q = .error .invalidArgument)
    ∧ (∀ q : ℚ, q.den = 1 → 0 ≤ q → ∃ v, fact q = .ok v)
    ∧ eval_with zeroLib "fact(3)".toList none = .ok 6
    ∧ eval_with zeroLib "fact(-1)".toList none = .error .invalidArgument := by
  refine ⟨?_, ?_, by decide, by decide⟩
  · intro q h
    rw [fact, if_pos h]
  · intro q h1 h2
    rw [fact, if_neg (by push_neg; exact ⟨h1, h2⟩)]
    dsimp only
    split
    · exact ⟨1, rfl⟩
    · exact ⟨_, rfl⟩

theorem claim_C8_witness :
    fact (-1) = .error .invalidArgument
      ∧ fact (1 / 2) = .error .invalidArgument :=
  ⟨claim_C8.1 (-1) (Or.inr (by decide)), claim_C8.1 (1 / 2) (Or.inl (by decide))⟩

/-- Claim C9: `evaluate` uses the transient binding in place of the
stored one when supplied (the result does not depend on the stored
binding at all), uses the stored binding when the transient one is
omitted, and in either case leaves the object's state unchanged. -/
theorem claim_C9 (M : MathLib) (m : MathExp) (t : List (List Char × ℚ)) :
    (MathExp.evaluate M m (some t)).1 = Tree.evaluate M t m.tree
    ∧ (MathExp.evaluate M m (some t)).2 = m
    ∧ (MathExp.evaluate M m none).1 = Tree.evaluate M m.variables_table m.tree
    ∧ (MathExp.evaluate M m none).2 = m
    ∧ (∀ m' : MathExp, m.tree = m'.tree →
        (MathExp.evaluate M m (some t)).1 = (MathExp.evaluate M m' (some t)).1) := by
  refine ⟨rfl, rfl, rfl, rfl, ?_⟩
  intro m' h
  simp [MathExp.evaluate, h]

theorem claim_C9_witness :
    (MathExp.evaluate zeroLib ⟨.literal ['y'], [(['y'], 2)]⟩ (some [])).1
      = (MathExp.evaluate zeroLib ⟨.literal ['y'], []⟩ (some [])).1 :=
  (claim_C9 zeroLib ⟨.literal ['y'], [(['y'], 2)]⟩ []).2.2.2.2
    ⟨.literal ['y'], []⟩ rfl

/-- Claim C10: removing a variable whose key is absent from the stored
binding raises `KeyError` (it is not a no-op), and the stored binding is
unchanged by the failed removal. -/
theorem claim_C10 (m : MathExp) (k : List Char)
    (h : alist_get m.variables_table k = none) :
    MathExp.remove_variable m k = (some (.keyError k), m) := by
  unfold MathExp.remove_variable
  rw [alist_get_none_pop _ _ h]

theorem claim_C10_witness :
    MathExp.remove_variable ⟨.literal ['1'], []⟩ ['x']
      = (some (.keyError ['x']), ⟨.literal ['1'], []⟩) :=
  claim_C10 ⟨.literal ['1'], []⟩ ['x'] rfl

theorem repAux_length (k : Nat) : ∀ e : List Char, (repAux k e).length ≤ e.length := by
  induction k with
  | zero => intro e; exact le_rfl
  | succ k ih =>
    intro e
    simp only [repAux]
    split
    · refine le_trans (ih _) ?_
      simp only [List.length_dropLast, List.length_drop]
      omega
    · exact le_rfl

theorem exp_check_error_cases (s : List Char) (er : PyErr)
    (h : exp_check s = .error er) :
    er = .malformedExpression ∨ er = .indexError := by
  simp only [exp_check] at h
  split at h
  · cases h; exact Or.inl rfl
  split at h
  · cases h; exact Or.inr rfl
  split at h
  · cases h; exact Or.inl rfl
  split at h
  · cases h; exact Or.inl rfl
  split at h
  · exact absurd h (by simp)
  split at h
  · exact absurd h (by simp)
  · exact absurd h (by simp)

theorem exp_check_ok (s e : List Char) (h : exp_check s = .ok e) :
    1 ≤ s.length ∧ e.length ≤ s.length + 1 := by
  simp only [exp_check] at h
  split at h
  · exact absurd h (by simp)
  split at h
  · exact absurd h (by simp)
  rename_i first rest heq
  have h1 : (remove_extra_parens (List.filter (fun c => !(c == ' ')) s)).length
      ≤ (List.filter (fun c => !(c == ' ')) s).length := repAux_length _ _
  have hf : (List.filter (fun c => !(c == ' ')) s).length ≤ s.length :=
    List.length_filter_le _ _
  rw [heq] at h1
  simp only [List.length_cons] at h1
  have hs : 1 ≤ s.length := by omega
  split at h
  · exact absurd h (by simp)
  split at h
  · exact absurd h (by simp)
  split at h
  · cases h
    refine ⟨hs, ?_⟩
    simp only [List.length_cons]
    omega
  split at h
  · cases h
    exact ⟨hs, by omega⟩
  · cases h
    refine ⟨hs, ?_⟩
    simp only [List.length_cons]
    omega

theorem ltoAux_cases (s : List Char) :
    ∀ (X : List Char) (i : Nat) (level pos : Int),
      i + X.length = s.length →
      (pos = -1 ∨ (1 ≤ pos ∧ pos.toNat + 2 ≤ s.length)) →
      (ltoAux s X i level pos = -1
        ∨ (1 ≤ ltoAux s X i level pos
            ∧ (ltoAux s X i level pos).toNat + 2 ≤ s.length)) := by
  intro X
  induction X with
  | nil =>
    intro i level pos _ hinv
    simpa [ltoAux] using hinv
  | cons c rest ih =>
    intro i level pos hlen hinv
    simp only [List.length_cons] at hlen
    have hlen' : (i + 1) + rest.length = s.length := by omega
    simp only [ltoAux]
    split
    · exact ih _ _ _ hlen' hinv
    split
    · exact ih _ _ _ hlen' hinv
    split
    · exact ih _ _ _ hlen' hinv
    split
    · exact ih _ _ _ hlen' hinv
    split
    · exact ih _ _ _ hlen' hinv
    rename_i h5
    split
    · exact ih _ _ _ hlen' hinv
    split
    · exact ih _ _ _ hlen' (Or.inr (by omega))
    split
    · exact ih _ _ _ hlen' (Or.inr (by omega))
    · exact ih _ _ _ hlen' hinv

theorem lookup_top_operator_cases (e : List Char) :
    lookup_top_operator e = -1
      ∨ (1 ≤ lookup_top_operator e
          ∧ (lookup_top_operator e).toNat + 2 ≤ e.length) :=
  ltoAux_cases e e 0 0 (-1) (by simp) (Or.inl rfl)

theorem buildF_error_cases : ∀ (n : Nat) (s : List Char) (er : PyErr),
    s.length < n → buildF n s = .error er →
    er = .malformedExpression ∨ er = .indexError := by
  intro n
  induction n with
  | zero =>
    intro s er hlen _
    exact absurd hlen (Nat.not_lt_zero _)
  | succ n ih =>
    intro s er hlen h
    simp only [buildF] at h
    split at h
    · rename_i e' heq
      cases h
      exact exp_check_error_cases s _ heq
    rename_i e heq
    obtain ⟨hs1, hse⟩ := exp_check_ok s e heq
    split at h
    · rename_i f hf
      split at h
      · rename_i err herr
        cases h
        refine ih _ _ ?_ herr
        have harg : ((e.drop (f.length + 1)).dropLast).length + 2 ≤ e.length
            ∨ ((e.drop (f.length + 1)).dropLast).length = 0 := by
          simp only [List.length_dropLast, List.length_drop]
          omega
        omega
      · exact absurd h (by simp)
    · rename_i hnof
      split at h
      · rename_i hpos
        have hb : 1 ≤ (lookup_top_operator e).toNat
            ∧ (lookup_top_operator e).toNat + 2 ≤ e.length := by
          rcases lookup_top_operator_cases e with h1 | h2
          · rw [h1] at hpos
            exact absurd hpos (by norm_num)
          · exact ⟨by omega, h2.2⟩
        obtain ⟨hb1, hb2⟩ := hb
        split at h
        · rename_i err herr
          cases h
          refine ih _ _ ?_ herr
          have : (e.take (lookup_top_operator e).toNat).length
              ≤ (lookup_top_operator e).toNat := by
            simp [List.length_take]
          omega
        split at h
        · rename_i err herr
          cases h
          refine ih _ _ ?_ herr
          have : (e.drop ((lookup_top_operator e).toNat + 1)).length + 2
              ≤ e.length := by
            simp only [List.length_drop]
            omega
          omega
        · exact absurd h (by simp)
      · exact absurd h (by simp)

/-- Claim C3 (counterexample): constructing `"()"` fails with Python's
untyped `IndexError` (from `exp[0]` on the emptied string), which is
neither `MalformedExpression` nor the generic parsing error — so
construction can fail with an untyped error. -/
theorem claim_C3_counterexample :
    build "()".toList = .error .indexError
    ∧ PyErr.indexError ≠ .malformedExpression
    ∧ PyErr.indexError ≠ .expressionParsing := by decide

/-- Claim C3 (amended): whenever construction fails, the failure is
either the typed `MalformedExpression` or the untyped `IndexError`
raised by indexing into an expression that is empty after
normalisation; the generic parsing error never occurs at construction
time, and construction never fails in any other way. -/
theorem claim_C3 (s : List Char) (er : PyErr) (h : build s = .error er) :
    er = .malformedExpression ∨ er = .indexError :=
  buildF_error_cases (s.length + 1) s er (by omega) h

theorem claim_C3_witness :
    PyErr.malformedExpression = .malformedExpression
      ∨ PyErr.malformedExpression = .indexError :=
  claim_C3 ['('] .malformedExpression (by decide)

theorem runningCount_cons (c : Char) (l : List Char) :
    runningCount (c :: l)
      = (if c = '(' then 1 else if c = ')' then (-1 : Int) else 0)
        + runningCount l := by
  unfold runningCount
  by_cases h1 : c = '('
  · subst h1
    simp [List.count_cons]
    ring
  by_cases h2 : c = ')'
  · subst h2
    simp [List.count_cons, h1]
    ring
  · simp [List.count_cons, h1, h2, Ne.symm h1, Ne.symm h2]

theorem depthAfter_count (l : List Char) :
    ∀ d : Int, depthAfter l d = d + runningCount l := by
  induction l with
  | nil =>
    intro d
    simp [depthAfter, runningCount]
  | cons c rest ih =>
    intro d
    rw [depthAfter_cons, ih, runningCount_cons]
    unfold depthStep
    by_cases h1 : c = '('
    · simp [h1]
      ring
    by_cases h2 : c = ')'
    · simp [h1, h2]
      ring
    · simp [h1, h2]

theorem neverNeg_iff (l : List Char) :
    ∀ d : Int, 0 ≤ d →
      (neverNeg l d = true ↔ ∀ n : Nat, 0 ≤ depthAfter (l.take n) d) := by
  induction l with
  | nil =>
    intro d hd
    constructor
    · intro _ n
      simpa [depthAfter] using hd
    · intro _
      rfl
  | cons c rest ih =>
    intro d hd
    rw [neverNeg_cons]
    by_cases hneg : depthStep d c < 0
    · rw [if_pos hneg]
      constructor
      · intro h
        exact absurd h (by simp)
      · intro h
        have h1 := h 1
        simp only [List.take_succ_cons, List.take_zero, depthAfter_cons,
          depthAfter_nil] at h1
        omega
    · rw [if_neg hneg, ih (depthStep d c) (by omega)]
      constructor
      · intro h n
        cases n with
        | zero => simpa [depthAfter] using hd
        | succ n =>
          rw [List.take_succ_cons, depthAfter_cons]
          exact h n
      · intro h n
        have h1 := h (n + 1)
        rwa [List.take_succ_cons, depthAfter_cons] at h1

theorem parens_are_balanced_iff (s : List Char) :
    parens_are_balanced s = true
      ↔ ((∀ n : Nat, 0 ≤ runningCount (s.take n)) ∧ runningCount s = 0) := by
  rw [parens_are_balanced, pabAux_eq]
  simp only [Bool.and_eq_true, beq_iff_eq]
  rw [neverNeg_iff s 0 le_rfl]
  constructor
  · rintro ⟨h1, h2⟩
    refine ⟨fun n => ?_, ?_⟩
    · have := h1 n
      rwa [depthAfter_count, zero_add] at this
    · rwa [depthAfter_count, zero_add] at h2
  · rintro ⟨h1, h2⟩
    refine ⟨fun n => ?_, ?_⟩
    · rw [depthAfter_count, zero_add]
      exact h1 n
    · rw [depthAfter_count, zero_add]
      exact h2

theorem parens_are_balanced_false_iff (s : List Char) :
    parens_are_balanced s = false
      ↔ ((∃ n : Nat, runningCount (s.take n) < 0) ∨ runningCount s ≠ 0) := by
  have hb : parens_are_balanced s = false ↔ ¬ parens_are_balanced s = true := by
    cases parens_are_balanced s <;> simp
  rw [hb, parens_are_balanced_iff, not_and_or, not_forall]
  simp only [not_le]

/-- Claim C5: an input whose parentheses are unbalanced — the running
count of `(` minus `)` goes negative at some point, or is nonzero at
the end — always fails construction with `MalformedExpression`; in
particular `"(1+2"` and `"1+2)"` both do. -/
theorem claim_C5 :
    (∀ s : List Char, parens_are_balanced s = false →
        build s = .error .malformedExpression)
    ∧ (∀ s : List Char, parens_are_balanced s = false
        ↔ ((∃ n : Nat, runningCount (s.take n) < 0) ∨ runningCount s ≠ 0))
    ∧ build "(1+2".toList = .error .malformedExpression
    ∧ build "1+2)".toList = .error .malformedExpression := by
  refine ⟨?_, parens_are_balanced_false_iff, by decide, by decide⟩
  intro s h
  have hc : exp_check s = .error .malformedExpression := by
    simp [exp_check, h]
  simp [build, buildF, hc]

theorem claim_C5_witness :
    build ['('] = .error .malformedExpression :=
  claim_C5.1 ['('] (by decide)

theorem starts_with_iff (p : List Char) :
    ∀ s, starts_with p s = true ↔ ∃ t, s = p ++ t := by
  induction p with
  | nil =>
    intro s
    simp [starts_with]
  | cons pc ps ih =>
    intro s
    cases s with
    | nil => simp [starts_with]
    | cons x xs =>
      simp only [starts_with, Bool.and_eq_true, beq_iff_eq]
      rw [ih xs]
      constructor
      · rintro ⟨rfl, t, rfl⟩
        exact ⟨t, rfl⟩
      · rintro ⟨t, heq⟩
        injection heq with h1 h2
        exact ⟨h1.symm, t, h2⟩

theorem gf_match_decomp (f exp : List Char)
    (h1 : starts_with (f ++ ['(']) exp = true)
    (h2 : exp.getLast? = some ')') :
    ∃ I, exp = f ++ '(' :: (I ++ [')'])
      ∧ (exp.drop (f.length + 1)).dropLast = I := by
  obtain ⟨t, rfl⟩ := (starts_with_iff _ _).mp h1
  have ht : t ≠ [] := by
    rintro rfl
    rw [List.append_nil, List.getLast?_concat] at h2
    exact absurd h2 (by simp)
  have h3 : t.getLast ht = ')' := by
    rw [List.getLast?_append, List.getLast?_eq_getLast t ht] at h2
    exact Option.some_injective _ h2
  have h5 : t = t.dropLast ++ [')'] := by
    conv_lhs => rw [← List.dropLast_append_getLast ht]
    rw [h3]
  refine ⟨t.dropLast, ?_, ?_⟩
  · conv_lhs => rw [h5]
    simp
  · have h6 : (f ++ ['(']).length = f.length + 1 := by simp
    rw [← h6, List.drop_left]

theorem gf_aux_none_of_unbal :
    ∀ (names : List (List Char)) (e : List Char),
      (∀ nm ∈ names, parenFree nm = true) →
      parens_are_balanced e = false →
      get_function_aux names e = none := by
  intro names
  induction names with
  | nil => intro e _ _; rfl
  | cons f fs ih =>
    intro e hp hbal
    simp only [get_function_aux]
    split
    · rename_i hcond
      simp only [Bool.and_eq_true, beq_iff_eq] at hcond
      obtain ⟨I, heq, hI⟩ := gf_match_decomp f e hcond.1 hcond.2
      rw [hI]
      split
      · rename_i hIbal
        exfalso
        have hw := pab_wrap f I (hp f (by simp)) hIbal
        rw [heq, hw] at hbal
        exact absurd hbal (by simp)
      · rename_i hIbal
        exact ih I (fun nm hnm => hp nm (by simp [hnm])) (by simpa using hIbal)
    · exact ih e (fun nm hnm => hp nm (by simp [hnm])) hbal

theorem get_function_aux_some :
    ∀ (names : List (List Char)) (e f : List Char),
      (∀ nm ∈ names, parenFree nm = true) →
      get_function_aux names e = some f →
      f ∈ names ∧ ∃ I, e = f ++ '(' :: (I ++ [')'])
        ∧ parens_are_balanced I = true := by
  intro names
  induction names with
  | nil =>
    intro e f _ h
    exact absurd h (by simp [get_function_aux])
  | cons g gs ih =>
    intro e f hp h
    simp only [get_function_aux] at h
    split at h
    · rename_i hcond
      simp only [Bool.and_eq_true, beq_iff_eq] at hcond
      obtain ⟨I, heq, hI⟩ := gf_match_decomp g e hcond.1 hcond.2
      rw [hI] at h
      split at h
      · rename_i hIbal
        cases h
        exact ⟨by simp, I, heq, hIbal⟩
      · rename_i hIbal
        rw [gf_aux_none_of_unbal gs I (fun nm hnm => hp nm (by simp [hnm]))
          (by simpa using hIbal)] at h
        exact absurd h (by simp)
    · obtain ⟨hmem, hrest⟩ := ih e f (fun nm hnm => hp nm (by simp [hnm])) h
      exact ⟨by simp [hmem], hrest⟩

/-- Claim C6: function detection matches a registered name `F` only when
the whole string is `F(` followed by a balanced interior and a closing
`)` — never when the name merely prefixes a larger expression; in
particular `"sin(0)+1"` parses as `sin(0) + 1` and evaluates to `1`
under any interpretation with `sin 0 = 0`. -/
theorem claim_C6 :
    (∀ (e f : List Char), get_function e = some f →
        f ∈ FUNCTION_NAMES
        ∧ ∃ I, e = f ++ '(' :: (I ++ [')']) ∧ parens_are_balanced I = true)
    ∧ (∀ M : MathLib, M.sin 0 = .ok 0 →
        eval_with M "sin(0)+1".toList none = .ok 1)
    ∧ build "sin(0)+1".toList
        = .ok (.op '+' (.func "sin".toList (.literal ['0'])) (.literal ['1'])) := by
  refine ⟨?_, ?_, by decide⟩
  · intro e f h
    exact get_function_aux_some FUNCTION_NAMES e f (by decide) h
  · intro M hsin
    have hb : mathexp "sin(0)+1".toList
        = .ok ⟨.op '+' (.func "sin".toList (.literal ['0'])) (.literal ['1']), []⟩ := by
      decide
    have hfun : Tree.evaluate M [] (.func "sin".toList (.literal ['0'])) = .ok 0 :=
      hsin
    have hone : Tree.evaluate M [] (.literal ['1']) = .ok 1 := rfl
    have hop : Tree.evaluate M []
          (.op '+' (.func "sin".toList (.literal ['0'])) (.literal ['1']))
        = match Tree.evaluate M [] (.func "sin".toList (.literal ['0'])) with
          | .error e => .error e
          | .ok x =>
            match Tree.evaluate M [] (.literal ['1']) with
            | .error e => .error e
            | .ok y => evaluate_operator '+' x y := rfl
    simp only [eval_with, hb, MathExp.evaluate, hop, hfun, hone]
    decide

theorem claim_C6_witness :
    eval_with zeroLib "sin(0)+1".toList none = .ok 1
    ∧ ("sin".toList ∈ FUNCTION_NAMES
        ∧ ∃ I, "sin(0)".toList = "sin".toList ++ '(' :: (I ++ [')'])
            ∧ parens_are_balanced I = true) :=
  ⟨claim_C6.2.1 zeroLib rfl,
   claim_C6.1 "sin(0)".toList "sin".toList (by decide)⟩

theorem op_not_paren (c : Char) (h : is_operator c = true) :
    (c == '(') = false ∧ (c == ')') = false := by
  have h5 : c = '^' ∨ c = '*' ∨ c = '/' ∨ c = '+' ∨ c = '-' := by
    simp only [is_operator, Bool.or_eq_true, beq_iff_eq] at h
    tauto
  rcases h5 with rfl | rfl | rfl | rfl | rfl <;> exact ⟨rfl, rfl⟩

theorem depthStep_paren1 {d : Int} {c : Char} (h : (c == '(') = true) :
    depthStep d c = d + 1 := by
  unfold depthStep
  rw [if_pos h]

theorem depthStep_paren2 {d : Int} {c : Char} (h1 : ¬ (c == '(') = true)
    (h2 : (c == ')') = true) : depthStep d c = d - 1 := by
  unfold depthStep
  rw [if_neg h1, if_pos h2]

theorem depthStep_other {d : Int} {c : Char} (h1 : ¬ (c == '(') = true)
    (h2 : ¬ (c == ')') = true) : depthStep d c = d := by
  unfold depthStep
  rw [if_neg h1, if_neg h2]

theorem drop_cons_getD : ∀ (s X : List Char) (i : Nat) (x : Char),
    s.drop i = x :: X → s.getD i ' ' = x := by
  intro s
  induction s with
  | nil =>
    intro X i x h
    rw [List.drop_nil] at h
    exact absurd h (by simp)
  | cons y ys ih =>
    intro X i x h
    cases i with
    | zero =>
      simp only [List.drop_zero] at h
      cases h
      rfl
    | succ i =>
      rw [List.drop_succ_cons] at h
      simpa using ih X i x h

theorem drop_cons_succ : ∀ (s X : List Char) (i : Nat) (x : Char),
    s.drop i = x :: X → s.drop (i + 1) = X := by
  intro s
  induction s with
  | nil =>
    intro X i x h
    rw [List.drop_nil] at h
    exact absurd h (by simp)
  | cons y ys ih =>
    intro X i x h
    cases i with
    | zero =>
      simp only [List.drop_zero] at h
      cases h
      rfl
    | succ i =>
      rw [List.drop_succ_cons] at h
      rw [List.drop_succ_cons]
      exact ih X i x h

theorem getD_boundary : ∀ (L Y : List Char) (c dflt : Char),
    (L ++ c :: Y).getD L.length dflt = c := by
  intro L
  induction L with
  | nil => intro Y c dflt; rfl
  | cons x xs ih =>
    intro Y c dflt
    simpa using ih Y c dflt

theorem getD_append_last : ∀ (L Y : List Char) (dflt : Char), L ≠ [] →
    (L ++ Y).getD (L.length - 1) dflt = L.getLast?.getD dflt := by
  intro L
  induction L with
  | nil => intro Y dflt h; exact absurd rfl h
  | cons x xs ih =>
    intro Y dflt _
    cases xs with
    | nil => rfl
    | cons y ys =>
      have h1 := ih Y dflt (by simp)
      simp only [List.length_cons, List.cons_append] at h1 ⊢
      simpa using h1

theorem lto_phase2 (s : List Char) (m : Nat) (P : Int)
    (hsm : OPERATOR_PRIORITY (s.getD m ' ') = P) :
    ∀ (X : List Char) (i : Nat) (d : Int),
      topOpsGT P X d = true →
      ltoAux s X i d (m : Int) = (m : Int) := by
  intro X
  induction X with
  | nil => intro i d _; rfl
  | cons x rest ih =>
    intro i d hX
    simp only [ltoAux]
    split
    · rename_i h1
      refine ih _ _ ?_
      simp only [topOpsGT] at hX
      rwa [if_pos h1] at hX
    split
    · rename_i h1 h2
      refine ih _ _ ?_
      simp only [topOpsGT] at hX
      rwa [if_neg h1, if_pos h2] at hX
    split
    · rename_i h1 h2 h3
      have ho : is_operator x = false := by simpa using h3
      refine ih _ _ ?_
      simp only [topOpsGT] at hX
      rwa [if_neg h1, if_neg h2, if_neg (by simp [ho])] at hX
    split
    · rename_i h1 h2 h3 h4
      refine ih _ _ ?_
      simp only [topOpsGT] at hX
      rwa [if_neg h1, if_neg h2, if_neg (by simp [h4])] at hX
    · rename_i h1 h2 h3 h4
      have ho : is_operator x = true := by simpa using h3
      have hd0 : d = 0 := not_not.mp h4
      have hXr : decide (P < OPERATOR_PRIORITY x) = true ∧ topOpsGT P rest d = true := by
        simp only [topOpsGT] at hX
        rw [if_neg h1, if_neg h2, if_pos (by simp [ho, hd0]), Bool.and_eq_true] at hX
        exact hX
      split
      · exact ih _ _ hXr.2
      split
      · exact ih _ _ hXr.2
      split
      · rename_i h8
        exfalso
        omega
      split
      · rename_i h8
        exfalso
        have hmn : ((m : Int)).toNat = m := by omega
        rw [hmn, hsm] at h8
        have := of_decide_eq_true hXr.1
        omega
      · exact ih _ _ hXr.2

theorem lto_phase1 (s L R : List Char) (c : Char)
    (hs : s = L ++ c :: R)
    (hop : is_operator c = true)
    (hL : L ≠ []) (hR : R ≠ [])
    (hlast : ∀ ch, L.getLast? = some ch → is_operator ch = false)
    (hGT : topOpsGT (OPERATOR_PRIORITY c) R 0 = true) :
    ∀ (X : List Char) (i : Nat) (d pos : Int),
      s.drop i = X ++ c :: R →
      i + X.length = L.length →
      topOpsGE (OPERATOR_PRIORITY c) X d = true →
      depthAfter X d = 0 →
      (pos = -1 ∨ (0 ≤ pos ∧
        OPERATOR_PRIORITY c ≤ OPERATOR_PRIORITY (s.getD pos.toNat ' '))) →
      ltoAux s (X ++ c :: R) i d pos = (L.length : Int) := by
  subst hs
  have hnp := op_not_paren c hop
  have hlenL : 0 < L.length := List.length_pos.mpr hL
  have hlenR : 0 < R.length := List.length_pos.mpr hR
  intro X
  induction X with
  | nil =>
    intro i d pos hdrop hcount hGE hdepth hinv
    have hi : i = L.length := by simpa using hcount
    have hd0 : d = 0 := by simpa [depthAfter] using hdepth
    subst hi
    subst hd0
    have hprev : is_operator ((L ++ c :: R).getD (L.length - 1) ' ') = false := by
      rw [getD_append_last L (c :: R) ' ' hL, List.getLast?_eq_getLast L hL]
      exact hlast _ (List.getLast?_eq_getLast L hL)
    have hbound : OPERATOR_PRIORITY ((L ++ c :: R).getD L.length ' ')
        = OPERATOR_PRIORITY c := by
      rw [getD_boundary]
    simp only [List.nil_append, ltoAux]
    rw [if_neg (by simp [hnp.1]), if_neg (by simp [hnp.2]),
      if_neg (by simp [hop]),
      if_neg (by omega : ¬ (0 : Int) ≠ 0),
      if_neg (show ¬ (L.length = 0 ∨ L.length = (L ++ c :: R).length - 1) by
        simp only [List.length_append, List.length_cons]
        omega),
      if_neg (show ¬ (((c == '+' || c == '-')
          && is_operator ((L ++ c :: R).getD (L.length - 1) ' ')) = true) by
        rw [hprev]
        simp)]
    rcases hinv with rfl | ⟨h7a, h7b⟩
    · rw [if_pos rfl]
      exact lto_phase2 (L ++ c :: R) L.length (OPERATOR_PRIORITY c) hbound
        R (L.length + 1) 0 hGT
    · rw [if_neg (by omega), if_pos h7b]
      exact lto_phase2 (L ++ c :: R) L.length (OPERATOR_PRIORITY c) hbound
        R (L.length + 1) 0 hGT
  | cons x X' ih =>
    intro i d pos hdrop hcount hGE hdepth hinv
    have hgetd : (L ++ c :: R).getD i ' ' = x :=
      drop_cons_getD _ (X' ++ c :: R) i x (by simpa using hdrop)
    have hdrop' : (L ++ c :: R).drop (i + 1) = X' ++ c :: R :=
      drop_cons_succ _ (X' ++ c :: R) i x (by simpa using hdrop)
    have hcount' : (i + 1) + X'.length = L.length := by
      simp only [List.length_cons] at hcount
      omega
    simp only [List.cons_append, ltoAux]
    split
    · rename_i h1
      refine ih (i + 1) (d + 1) pos hdrop' hcount' ?_ ?_ hinv
      · simp only [topOpsGE] at hGE
        rwa [if_pos h1] at hGE
      · rwa [depthAfter_cons, depthStep_paren1 h1] at hdepth
    split
    · rename_i h1 h2
      refine ih (i + 1) (d - 1) pos hdrop' hcount' ?_ ?_ hinv
      · simp only [topOpsGE] at hGE
        rwa [if_neg h1, if_pos h2] at hGE
      · rwa [depthAfter_cons, depthStep_paren2 h1 h2] at hdepth
    split
    · rename_i h1 h2 h3
      have ho : is_operator x = false := by simpa using h3
      refine ih (i + 1) d pos hdrop' hcount' ?_ ?_ hinv
      · simp only [topOpsGE] at hGE
        rwa [if_neg h1, if_neg h2, if_neg (by simp [ho])] at hGE
      · rwa [depthAfter_cons, depthStep_other h1 h2] at hdepth
    split
    · rename_i h1 h2 h3 h4
      refine ih (i + 1) d pos hdrop' hcount' ?_ ?_ hinv
      · simp only [topOpsGE] at hGE
        rwa [if_neg h1, if_neg h2, if_neg (by simp [h4])] at hGE
      · rwa [depthAfter_cons, depthStep_other h1 h2] at hdepth
    rename_i h1 h2 h3 h4
    have ho : is_operator x = true := by simpa using h3
    have hd0 : d = 0 := not_not.mp h4
    have hGEx : decide (OPERATOR_PRIORITY c ≤ OPERATOR_PRIORITY x) = true
        ∧ topOpsGE (OPERATOR_PRIORITY c) X' d = true := by
      simp only [topOpsGE] at hGE
      rw [if_neg h1, if_neg h2, if_pos (by simp [ho, hd0]), Bool.and_eq_true] at hGE
      exact hGE
    have hdep' : depthAfter X' d = 0 := by
      rwa [depthAfter_cons, depthStep_other h1 h2] at hdepth
    split
    · exact ih (i + 1) d pos hdrop' hcount' hGEx.2 hdep' hinv
    split
    · exact ih (i + 1) d pos hdrop' hcount' hGEx.2 hdep' hinv
    have hposinv : ((i : Int) = -1 ∨ (0 ≤ (i : Int) ∧
        OPERATOR_PRIORITY c
          ≤ OPERATOR_PRIORITY ((L ++ c :: R).getD ((i : Int)).toNat ' '))) := by
      right
      refine ⟨by omega, ?_⟩
      have htn : ((i : Int)).toNat = i := by omega
      rw [htn, hgetd]
      exact of_decide_eq_true hGEx.1
    split
    · exact ih (i + 1) d (i : Int) hdrop' hcount' hGEx.2 hdep' hposinv
    split
    · exact ih (i + 1) d (i : Int) hdrop' hcount' hGEx.2 hdep' hposinv
    · exact ih (i + 1) d pos hdrop' hcount' hGEx.2 hdep' hinv

theorem lto_split (L R : List Char) (c : Char)
    (hop : is_operator c = true)
    (hL : L ≠ []) (hR : R ≠ [])
    (hLbal : parens_are_balanced L = true)
    (hlast : ∀ ch, L.getLast? = some ch → is_operator ch = false)
    (hGE : topOpsGE (OPERATOR_PRIORITY c) L 0 = true)
    (hGT : topOpsGT (OPERATOR_PRIORITY c) R 0 = true) :
    lookup_top_operator (L ++ c :: R) = (L.length : Int) := by
  rw [parens_are_balanced, pabAux_eq, Bool.and_eq_true, beq_iff_eq] at hLbal
  unfold lookup_top_operator
  exact lto_phase1 (L ++ c :: R) L R c rfl hop hL hR hlast hGT L 0 0 (-1)
    rfl (by simp) hGE hLbal.2 (Or.inl rfl)

/-- Claim C4: the scan replaces its candidate whenever a new top-level
candidate's priority is less than or equal to the current best, so the
split lands on the rightmost of the weakest candidates: whenever every
top-level operator left of `c` has priority at least `c`'s and every
top-level operator right of `c` has strictly greater priority (as in a
chain of equal-priority operators decomposed at its last operator), the
chosen split is `c`'s position.  Splitting is therefore
left-associative: `"8-3-2"` parses as `(8-3)-2` and evaluates to `3`,
not `8-(3-2)`. -/
theorem claim_C4 :
    (∀ (L R : List Char) (c : Char),
        is_operator c = true → L ≠ [] → R ≠ [] →
        parens_are_balanced L = true →
        (∀ ch, L.getLast? = some ch → is_operator ch = false) →
        topOpsGE (OPERATOR_PRIORITY c) L 0 = true →
        topOpsGT (OPERATOR_PRIORITY c) R 0 = true →
        lookup_top_operator (L ++ c :: R) = (L.length : Int))
    ∧ build "8-3-2".toList
        = .ok (.op '-' (.op '-' (.literal ['8']) (.literal ['3'])) (.literal ['2']))
    ∧ eval_with zeroLib "8-3-2".toList none = .ok 3 :=
  ⟨fun L R c hop hL hR hb hl hge hgt => lto_split L R c hop hL hR hb hl hge hgt,
   by decide, by decide⟩

theorem claim_C4_witness :
    lookup_top_operator "8-3-2".toList = ("8-3".toList.length : Int) :=
  claim_C4.1 "8-3".toList "2".toList '-' (by decide) (by decide) (by decide)
    (by decide)
    (by
      intro ch h
      simp at h
      subst h
      decide)
    (by decide) (by decide)

theorem is_operator_cases (c : Char) (h : is_operator c = true) :
    c = '^' ∨ c = '*' ∨ c = '/' ∨ c = '+' ∨ c = '-' := by
  simp only [is_operator, Bool.or_eq_true, beq_iff_eq] at h
  tauto

theorem topOpsGE_append (P : Int) (X Y : List Char) :
    ∀ d : Int, topOpsGE P (X ++ Y) d
      = (topOpsGE P X d && topOpsGE P Y (depthAfter X d)) := by
  induction X with
  | nil => intro d; simp [topOpsGE, depthAfter]
  | cons c rest ih =>
    intro d
    simp only [List.cons_append, topOpsGE, depthAfter_cons, List.append_eq]
    split
    · rename_i h1
      rw [depthStep_paren1 h1]
      exact ih _
    split
    · rename_i h1 h2
      rw [depthStep_paren2 h1 h2]
      exact ih _
    split
    · rename_i h1 h2 h3
      rw [depthStep_other h1 h2, ih d, Bool.and_assoc]
    · rename_i h1 h2 h3
      rw [depthStep_other h1 h2]
      exact ih _

theorem topOpsGT_append (P : Int) (X Y : List Char) :
    ∀ d : Int, topOpsGT P (X ++ Y) d
      = (topOpsGT P X d && topOpsGT P Y (depthAfter X d)) := by
  induction X with
  | nil => intro d; simp [topOpsGT, depthAfter]
  | cons c rest ih =>
    intro d
    simp only [List.cons_append, topOpsGT, depthAfter_cons, List.append_eq]
    split
    · rename_i h1
      rw [depthStep_paren1 h1]
      exact ih _
    split
    · rename_i h1 h2
      rw [depthStep_paren2 h1 h2]
      exact ih _
    split
    · rename_i h1 h2 h3
      rw [depthStep_other h1 h2, ih d, Bool.and_assoc]
    · rename_i h1 h2 h3
      rw [depthStep_other h1 h2]
      exact ih _

theorem topOpsGE_of_le : ∀ (l : List Char) (d P P' : Int), P ≤ P' →
    topOpsGE P' l d = true → topOpsGE P l d = true := by
  intro l
  induction l with
  | nil => intro d P P' _ _; rfl
  | cons c rest ih =>
    intro d P P' hpp h
    simp only [topOpsGE] at h ⊢
    split
    · rename_i h1
      rw [if_pos h1] at h
      exact ih _ _ _ hpp h
    split
    · rename_i h1 h2
      rw [if_neg h1, if_pos h2] at h
      exact ih _ _ _ hpp h
    split
    · rename_i h1 h2 h3
      rw [if_neg h1, if_neg h2, if_pos h3, Bool.and_eq_true] at h
      rw [Bool.and_eq_true]
      refine ⟨?_, ih _ _ _ hpp h.2⟩
      have h4 := of_decide_eq_true h.1
      exact decide_eq_true (by omega)
    · rename_i h1 h2 h3
      rw [if_neg h1, if_neg h2, if_neg h3] at h
      exact ih _ _ _ hpp h

theorem topOpsGT_of_GE : ∀ (l : List Char) (d P Q : Int), P < Q →
    topOpsGE Q l d = true → topOpsGT P l d = true := by
  intro l
  induction l with
  | nil => intro d P Q _ _; rfl
  | cons c rest ih =>
    intro d P Q hpq h
    simp only [topOpsGE] at h
    simp only [topOpsGT]
    split
    · rename_i h1
      rw [if_pos h1] at h
      exact ih _ _ _ hpq h
    split
    · rename_i h1 h2
      rw [if_neg h1, if_pos h2] at h
      exact ih _ _ _ hpq h
    split
    · rename_i h1 h2 h3
      rw [if_neg h1, if_neg h2, if_pos h3, Bool.and_eq_true] at h
      rw [Bool.and_eq_true]
      refine ⟨?_, ih _ _ _ hpq h.2⟩
      have h4 := of_decide_eq_true h.1
      exact decide_eq_true (by omega)
    · rename_i h1 h2 h3
      rw [if_neg h1, if_neg h2, if_neg h3] at h
      exact ih _ _ _ hpq h

theorem topOpsGE_of_deep : ∀ (l : List Char) (d e P : Int), e < d →
    neverNeg l e = true → topOpsGE P l d = true := by
  intro l
  induction l with
  | nil => intro d e P _ _; rfl
  | cons c rest ih =>
    intro d e P hed h
    simp only [neverNeg] at h
    split at h
    · exact absurd h (by simp)
    rename_i hnn
    simp only [topOpsGE]
    split
    · rename_i h1
      rw [depthStep_paren1 h1] at h hnn
      exact ih _ _ _ (by omega) h
    split
    · rename_i h1 h2
      rw [depthStep_paren2 h1 h2] at h hnn
      exact ih _ _ _ (by omega) h
    split
    · rename_i h1 h2 h3
      exfalso
      rw [depthStep_other h1 h2] at hnn
      simp only [Bool.and_eq_true, beq_iff_eq] at h3
      omega
    · rename_i h1 h2 h3
      rw [depthStep_other h1 h2] at h
      exact ih _ _ _ hed h

theorem topOpsGE_no_ops : ∀ (X : List Char) (d P : Int),
    (∀ c ∈ X, is_operator c = false) → topOpsGE P X d = true := by
  intro X
  induction X with
  | nil => intro d P _; rfl
  | cons c rest ih =>
    intro d P h
    have hc : is_operator c = false := h c (by simp)
    have hrest : ∀ x ∈ rest, is_operator x = false := fun x hx => h x (by simp [hx])
    simp only [topOpsGE]
    split
    · exact ih _ _ hrest
    split
    · exact ih _ _ hrest
    split
    · rename_i h1 h2 h3
      rw [Bool.and_eq_true] at h3
      rw [hc] at h3
      exact absurd h3.1 (by simp)
    · exact ih _ _ hrest

theorem topOpsGE_wrapped (X : List Char) (P : Int)
    (hnn : neverNeg X 0 = true) (hd : depthAfter X 0 = 0) :
    topOpsGE P ('(' :: (X ++ [')'])) 0 = true := by
  simp only [topOpsGE]
  rw [if_pos (by rfl : (('(' : Char) == '(') = true)]
  rw [topOpsGE_append, Bool.and_eq_true]
  constructor
  · exact topOpsGE_of_deep X 1 0 P (by omega) hnn
  · have h1 : depthAfter X (0 + 1) = 1 := by
      have h := depthAfter_add X 0 1
      rw [hd] at h
      simpa using h
    rw [h1]
    rfl

theorem ltoAux_no_ops (s : List Char) : ∀ (X : List Char) (i : Nat) (level pos : Int),
    (∀ c ∈ X, is_operator c = false) → ltoAux s X i level pos = pos := by
  intro X
  induction X with
  | nil => intro i level pos _; rfl
  | cons c rest ih =>
    intro i level pos h
    have hc : is_operator c = false := h c (by simp)
    have hrest : ∀ x ∈ rest, is_operator x = false := fun x hx => h x (by simp [hx])
    simp only [ltoAux]
    split
    · exact ih _ _ _ hrest
    split
    · exact ih _ _ _ hrest
    · rw [if_pos (by simp [hc] : (!(is_operator c)) = true)]
      exact ih _ _ _ hrest

theorem lookup_no_ops (e : List Char) (h : ∀ c ∈ e, is_operator c = false) :
    lookup_top_operator e = -1 :=
  ltoAux_no_ops e e 0 0 (-1) h

theorem prioOfLevel_vals (b : Nat) :
    prioOfLevel b = -3 ∨ prioOfLevel b = -2 ∨ prioOfLevel b = -1
      ∨ prioOfLevel b = 0 := by
  rcases b with _ | _ | _ | _ | b <;> simp [prioOfLevel]

theorem prioOfLevel_mono : ∀ k m : Nat, 1 ≤ k → k ≤ m →
    prioOfLevel k ≤ prioOfLevel m := by
  intro k m h1 h2
  rcases k with _ | _ | _ | _ | k
  · omega
  · rcases prioOfLevel_vals m with h | h | h | h <;> rw [h] <;> simp [prioOfLevel]
  · rcases m with _ | _ | _ | _ | m
    · omega
    · omega
    · simp [prioOfLevel]
    · simp [prioOfLevel]
    · simp [prioOfLevel]
  · rcases m with _ | _ | _ | _ | m
    · omega
    · omega
    · omega
    · simp [prioOfLevel]
    · simp [prioOfLevel]
  · rcases m with _ | _ | _ | _ | m
    · omega
    · omega
    · omega
    · omega
    · simp [prioOfLevel]

theorem Aop.char_op (o : Aop) : is_operator o.char = true := by
  cases o <;> decide

theorem Aop.char_prio (o : Aop) :
    OPERATOR_PRIORITY o.char = prioOfLevel o.lvl := by
  cases o <;> decide

theorem Aop.lvl_pos (o : Aop) : 1 ≤ o.lvl := by
  cases o <;> decide

theorem Aop.prio_lt_succ (o : Aop) :
    prioOfLevel o.lvl < prioOfLevel (o.lvl + 1) := by
  cases o <;> decide

theorem digit_ne (c ch : Char) (h : c.isDigit = true) (hch : ch.isDigit = false) :
    (c == ch) = false := by
  cases hcc : c == ch
  · rfl
  · rw [beq_iff_eq] at hcc
    subst hcc
    rw [h] at hch
    exact absurd hch (by simp)

theorem digit_not_op (c : Char) (h : c.isDigit = true) : is_operator c = false := by
  simp only [is_operator, digit_ne c '^' h (by decide), digit_ne c '*' h (by decide),
    digit_ne c '/' h (by decide), digit_ne c '+' h (by decide),
    digit_ne c '-' h (by decide), Bool.or_self]

theorem ppNum_ne_nil (n : Nat) : ppNum n ≠ [] := by
  unfold ppNum
  split
  · simp
  · rename_i h
    simp [Nat.digits_ne_nil_iff_ne_zero, h]

theorem ppNum_digits (n : Nat) : ∀ c ∈ ppNum n, c.isDigit = true := by
  unfold ppNum
  split
  · intro c hc
    simp only [List.mem_singleton] at hc
    subst hc
    decide
  · intro c hc
    simp only [List.mem_map, List.mem_reverse] at hc
    obtain ⟨d, hd, rfl⟩ := hc
    have hlt : d < 10 := Nat.digits_lt_base (by norm_num) hd
    interval_cases d <;> decide

theorem digitsToNat_concat (X : List Char) (y : Char) :
    digitsToNat (X ++ [y]) = 10 * digitsToNat X + charVal y := by
  unfold digitsToNat
  rw [List.foldl_append]
  rfl

theorem digitsToNat_ppNum (n : Nat) : digitsToNat (ppNum n) = n := by
  unfold ppNum
  split
  · rename_i h
    rw [h]
    rfl
  · rename_i h
    have key : ∀ ds : List Nat, (∀ d ∈ ds, d < 10) →
        digitsToNat ((ds.reverse).map Nat.digitChar) = Nat.ofDigits 10 ds := by
      intro ds
      induction ds with
      | nil => intro _; rfl
      | cons d rest ih =>
        intro hd
        rw [List.reverse_cons, List.map_append]
        simp only [List.map_cons, List.map_nil]
        rw [digitsToNat_concat, ih (fun x hx => hd x (by simp [hx]))]
        have hdd : d < 10 := hd d (by simp)
        have hcv : charVal (Nat.digitChar d) = d := by
          interval_cases d <;> decide
        rw [hcv, Nat.ofDigits_cons]
        ring
    rw [key (Nat.digits 10 n) (fun d hd => Nat.digits_lt_base (by norm_num) hd),
      Nat.ofDigits_digits]

theorem splitFirst_none (p : Char → Bool) : ∀ l : List Char,
    (∀ c ∈ l, p c = false) → splitFirst p l = none := by
  intro l
  induction l with
  | nil => intro _; rfl
  | cons c rest ih =>
    intro h
    simp only [splitFirst]
    rw [if_neg (by simp [h c (by simp)])]
    rw [ih (fun x hx => h x (by simp [hx]))]
    rfl

theorem parse_float?_digits (l : List Char) (hne : l ≠ [])
    (hdig : ∀ c ∈ l, c.isDigit = true) :
    parse_float? l = some ((digitsToNat l : Nat) : ℚ) := by
  obtain ⟨c0, l', rfl⟩ := List.exists_cons_of_ne_nil hne
  have hc0 : c0.isDigit = true := hdig c0 (by simp)
  have hm : ((c0 :: l').head? == some '-') = false := by
    simp only [List.head?_cons]
    cases hb : (some c0 == some '-')
    · rfl
    · rw [beq_iff_eq] at hb
      injection hb with hb
      subst hb
      exact absurd hc0 (by decide)
  have hp : ((c0 :: l').head? == some '+') = false := by
    simp only [List.head?_cons]
    cases hb : (some c0 == some '+')
    · rfl
    · rw [beq_iff_eq] at hb
      injection hb with hb
      subst hb
      exact absurd hc0 (by decide)
  have hEE : ∀ c ∈ c0 :: l', ((c == 'e' || c == 'E') : Bool) = false := by
    intro c hc
    rw [digit_ne c 'e' (hdig c hc) (by decide), digit_ne c 'E' (hdig c hc) (by decide)]
    rfl
  have hdot : ∀ c ∈ c0 :: l', ((c == '.') : Bool) = false := by
    intro c hc
    exact digit_ne c '.' (hdig c hc) (by decide)
  unfold parse_float?
  rw [hm, hp]
  simp only [Bool.or_false, Bool.false_or, if_neg (by simp : ¬ false = true)]
  rw [splitFirst_none _ _ hEE]
  unfold parseMantissa?
  rw [splitFirst_none _ _ hdot]
  unfold parseUint?
  rw [if_neg (by simp), if_pos (by simpa [List.all_eq_true] using hdig)]
  simp

theorem parse_float?_ppNum (n : Nat) : parse_float? (ppNum n) = some (n : ℚ) := by
  rw [parse_float?_digits (ppNum n) (ppNum_ne_nil n) (ppNum_digits n),
    digitsToNat_ppNum]

theorem is_number_ppNum (n : Nat) : is_number (ppNum n) = true := by
  rw [is_number, parse_float?_ppNum]
  rfl

theorem parse_float_ppNum (n : Nat) : parse_float (ppNum n) = (n : ℚ) := by
  rw [parse_float, parse_float?_ppNum]
  rfl

theorem ppNum_parenFree (n : Nat) : parenFree (ppNum n) = true := by
  rw [parenFree, List.all_eq_true]
  intro c hc
  have hd := ppNum_digits n c hc
  rw [digit_ne c '(' hd (by decide), digit_ne c ')' hd (by decide)]
  rfl

theorem wrap_bal (X : List Char) (hnn : neverNeg X 0 = true)
    (hd : depthAfter X 0 = 0) :
    neverNeg ('(' :: (X ++ [')'])) 0 = true
      ∧ depthAfter ('(' :: (X ++ [')'])) 0 = 0 := by
  have hstep : depthStep 0 '(' = 1 := rfl
  have h1 : depthAfter X 1 = 1 := by
    have h := depthAfter_add X 0 1
    rw [hd] at h
    simpa using h
  constructor
  · rw [neverNeg_cons, hstep, if_neg (by omega), neverNeg_append, Bool.and_eq_true]
    refine ⟨neverNeg_mono X 0 1 (by omega) hnn, ?_⟩
    rw [h1]
    rfl
  · rw [depthAfter_cons, hstep, depthAfter_append, h1]
    rfl

theorem wrapIf_bal (b : Bool) (X : List Char) (hnn : neverNeg X 0 = true)
    (hd : depthAfter X 0 = 0) :
    neverNeg (wrapIf b X) 0 = true ∧ depthAfter (wrapIf b X) 0 = 0 := by
  cases b
  · exact ⟨hnn, hd⟩
  · exact wrap_bal X hnn hd

theorem ppArith_bal : ∀ a : Arith,
    neverNeg (ppArith a) 0 = true ∧ depthAfter (ppArith a) 0 = 0 := by
  intro a
  induction a with
  | num n =>
    exact ⟨parenFree_neverNeg _ (ppNum_parenFree n) 0 le_rfl,
      parenFree_depthAfter _ (ppNum_parenFree n) 0⟩
  | bin o l r ihl ihr =>
    have hL := wrapIf_bal (decide (Arith.level l < o.lvl)) _ ihl.1 ihl.2
    have hR := wrapIf_bal (decide (Arith.level r < o.lvl + 1)) _ ihr.1 ihr.2
    have hnp := op_not_paren o.char (Aop.char_op o)
    have hstep : depthStep 0 o.char = 0 :=
      depthStep_other (by simp [hnp.1]) (by simp [hnp.2])
    constructor
    · show neverNeg (_ ++ o.char :: _) 0 = true
      rw [neverNeg_append, Bool.and_eq_true]
      refine ⟨hL.1, ?_⟩
      rw [hL.2, neverNeg_cons, hstep, if_neg (by omega)]
      exact hR.1
    · show depthAfter (_ ++ o.char :: _) 0 = 0
      rw [depthAfter_append, hL.2, depthAfter_cons, hstep]
      exact hR.2

theorem ppArith_pab (a : Arith) : parens_are_balanced (ppArith a) = true := by
  rw [parens_are_balanced, pabAux_eq, Bool.and_eq_true]
  refine ⟨(ppArith_bal a).1, ?_⟩
  rw [(ppArith_bal a).2]
  rfl

theorem wrapIf_ne_nil (b : Bool) (X : List Char) (h : X ≠ []) :
    wrapIf b X ≠ [] := by
  cases b
  · exact h
  · simp [wrapIf]

theorem ppArith_ne_nil : ∀ a : Arith, ppArith a ≠ [] := by
  intro a
  cases a with
  | num n => exact ppNum_ne_nil n
  | bin o l r => simp [ppArith]

theorem wrapIf_subset (b : Bool) (X : List Char) :
    ∀ c ∈ wrapIf b X, c = '(' ∨ c = ')' ∨ c ∈ X := by
  cases b <;> intro c hc
  · exact Or.inr (Or.inr (by simpa [wrapIf] using hc))
  · simp only [wrapIf, if_pos, List.mem_cons, List.mem_append,
      List.mem_singleton] at hc
    tauto

theorem ppArith_no_space : ∀ a : Arith, ∀ c ∈ ppArith a, (c == ' ') = false := by
  intro a
  induction a with
  | num n =>
    intro c hc
    exact digit_ne c ' ' (ppNum_digits n c hc) (by decide)
  | bin o l r ihl ihr =>
    intro c hc
    simp only [ppArith, List.mem_append, List.mem_cons] at hc
    have hop : ∀ x : Char, is_operator x = true → (x == ' ') = false := by
      intro x hx
      rcases is_operator_cases x hx with rfl | rfl | rfl | rfl | rfl <;> rfl
    rcases hc with hc | hc | hc
    · rcases wrapIf_subset _ _ c hc with rfl | rfl | hc
      · rfl
      · rfl
      · exact ihl c hc
    · subst hc
      exact hop _ (Aop.char_op o)
    · rcases wrapIf_subset _ _ c hc with rfl | rfl | hc
      · rfl
      · rfl
      · exact ihr c hc

theorem head?_append_left (X Y : List Char) (h : X ≠ []) :
    (X ++ Y).head? = X.head? := by
  obtain ⟨c, t, rfl⟩ := List.exists_cons_of_ne_nil h
  rfl

theorem getLast?_append_right (X Y : List Char) (h : Y ≠ []) :
    (X ++ Y).getLast? = Y.getLast? := by
  rw [List.getLast?_append, List.getLast?_eq_getLast Y h]
  rfl

theorem ppArith_head : ∀ (a : Arith) (h : Char),
    (ppArith a).head? = some h → (h.isDigit = true ∨ h = '(') := by
  intro a
  induction a with
  | num n =>
    intro h hh
    obtain ⟨c0, t, he⟩ := List.exists_cons_of_ne_nil (ppNum_ne_nil n)
    rw [show ppArith (.num n) = ppNum n from rfl, he] at hh
    simp only [List.head?_cons, Option.some.injEq] at hh
    subst hh
    exact Or.inl (ppNum_digits n c0 (by rw [he]; simp))
  | bin o l r ihl ihr =>
    intro h hh
    rw [show ppArith (.bin o l r)
        = wrapIf (decide (Arith.level l < o.lvl)) (ppArith l)
          ++ o.char :: wrapIf (decide (Arith.level r < o.lvl + 1)) (ppArith r)
      from rfl] at hh
    rw [head?_append_left _ _
      (wrapIf_ne_nil _ _ (ppArith_ne_nil l))] at hh
    cases hb : decide (Arith.level l < o.lvl) with
    | false =>
      rw [hb] at hh
      exact ihl h hh
    | true =>
      rw [hb] at hh
      simp only [wrapIf, if_pos, List.head?_cons, Option.some.injEq] at hh
      exact Or.inr hh.symm

theorem ppArith_last : ∀ (a : Arith) (ch : Char),
    (ppArith a).getLast? = some ch → (ch.isDigit = true ∨ ch = ')') := by
  intro a
  induction a with
  | num n =>
    intro ch hh
    rw [show ppArith (.num n) = ppNum n from rfl,
      List.getLast?_eq_getLast (ppNum n) (ppNum_ne_nil n),
      Option.some.injEq] at hh
    subst hh
    exact Or.inl (ppNum_digits n _ (List.getLast_mem _))
  | bin o l r ihl ihr =>
    intro ch hh
    rw [show ppArith (.bin o l r)
        = wrapIf (decide (Arith.level l < o.lvl)) (ppArith l)
          ++ o.char :: wrapIf (decide (Arith.level r < o.lvl + 1)) (ppArith r)
      from rfl] at hh
    rw [getLast?_append_right _ _ (by simp)] at hh
    rw [show (o.char :: wrapIf (decide (Arith.level r < o.lvl + 1)) (ppArith r))
        = [o.char] ++ wrapIf (decide (Arith.level r < o.lvl + 1)) (ppArith r)
      from rfl] at hh
    rw [getLast?_append_right _ _
      (wrapIf_ne_nil _ _ (ppArith_ne_nil r))] at hh
    cases hb : decide (Arith.level r < o.lvl + 1) with
    | false =>
      rw [hb] at hh
      exact ihr ch hh
    | true =>
      rw [hb] at hh
      simp only [wrapIf, if_pos] at hh
      rw [show ('(' :: (ppArith r ++ [')']))
          = ('(' :: ppArith r) ++ [')'] from by simp] at hh
      rw [List.getLast?_concat] at hh
      injection hh with hh
      exact Or.inr hh.symm

theorem ppArith_topGE_core : ∀ a : Arith,
    topOpsGE (prioOfLevel (Arith.level a)) (ppArith a) 0 = true := by
  intro a
  induction a with
  | num n =>
    refine topOpsGE_no_ops _ _ _ ?_
    intro c hc
    exact digit_not_op c (ppNum_digits n c hc)
  | bin o l r ihl ihr =>
    have hnp := op_not_paren o.char (Aop.char_op o)
    have hWL : topOpsGE (prioOfLevel (Arith.level (.bin o l r)))
        (wrapIf (decide (Arith.level l < o.lvl)) (ppArith l)) 0 = true := by
      cases hb : decide (Arith.level l < o.lvl) with
      | true =>
        simp only [wrapIf, if_pos]
        exact topOpsGE_wrapped _ _ (ppArith_bal l).1 (ppArith_bal l).2
      | false =>
        simp only [wrapIf, Bool.false_eq_true, if_neg, if_false]
        refine topOpsGE_of_le _ _ _ _ ?_ ihl
        have hle : o.lvl ≤ Arith.level l := by
          have := of_decide_eq_false hb
          omega
        exact prioOfLevel_mono o.lvl (Arith.level l) (Aop.lvl_pos o) hle
    have hWR : topOpsGE (prioOfLevel (Arith.level (.bin o l r)))
        (wrapIf (decide (Arith.level r < o.lvl + 1)) (ppArith r)) 0 = true := by
      cases hb : decide (Arith.level r < o.lvl + 1) with
      | true =>
        simp only [wrapIf, if_pos]
        exact topOpsGE_wrapped _ _ (ppArith_bal r).1 (ppArith_bal r).2
      | false =>
        simp only [wrapIf, Bool.false_eq_true, if_neg, if_false]
        refine topOpsGE_of_le _ _ _ _ ?_ ihr
        have hle : o.lvl ≤ Arith.level r := by
          have := of_decide_eq_false hb
          omega
        exact prioOfLevel_mono o.lvl (Arith.level r) (Aop.lvl_pos o) hle
    show topOpsGE _ (_ ++ o.char :: _) 0 = true
    rw [topOpsGE_append, Bool.and_eq_true]
    refine ⟨hWL, ?_⟩
    rw [(wrapIf_bal _ _ (ppArith_bal l).1 (ppArith_bal l).2).2]
    simp only [topOpsGE]
    rw [if_neg (by simp [hnp.1]), if_neg (by simp [hnp.2]),
      if_pos (by simp [Aop.char_op o]), Bool.and_eq_true]
    constructor
    · refine decide_eq_true ?_
      rw [Aop.char_prio]
      exact le_rfl
    · exact hWR

theorem ppArith_topGE_ctx (a : Arith) (ctx : Nat) (h1 : 1 ≤ ctx) :
    topOpsGE (prioOfLevel ctx) (wrapIf (decide (Arith.level a < ctx)) (ppArith a)) 0
      = true := by
  cases hb : decide (Arith.level a < ctx) with
  | true =>
    simp only [wrapIf, if_pos]
    exact topOpsGE_wrapped _ _ (ppArith_bal a).1 (ppArith_bal a).2
  | false =>
    simp only [wrapIf, Bool.false_eq_true, if_neg, if_false]
    refine topOpsGE_of_le _ _ _ _ ?_ (ppArith_topGE_core a)
    have hle : ctx ≤ Arith.level a := by
      have := of_decide_eq_false hb
      omega
    exact prioOfLevel_mono ctx (Arith.level a) h1 hle

theorem neverNeg_false_of_neg (X : List Char) (h : depthAfter X 0 < 0) :
    neverNeg X 0 = false := by
  cases hb : neverNeg X 0
  · rfl
  · have := neverNeg_le_depthAfter X 0 le_rfl hb
    omega

theorem pab_false_left (X Y : List Char) (h : neverNeg X 0 = false) :
    parens_are_balanced (X ++ Y) = false := by
  rw [parens_are_balanced, pabAux_eq, neverNeg_append, h]
  rfl

theorem dropLast_append_cons (X : List Char) (c : Char) (Y : List Char) :
    (X ++ c :: Y).dropLast = X ++ (c :: Y).dropLast := by
  induction X with
  | nil => rfl
  | cons x xs ih =>
    rw [List.cons_append, List.dropLast_cons_of_ne_nil (by simp), ih]
    rfl

theorem stripCond_ppArith (a : Arith) : stripCond (ppArith a) = false := by
  cases a with
  | num n =>
    obtain ⟨c0, t, he⟩ := List.exists_cons_of_ne_nil (ppNum_ne_nil n)
    have hd : c0.isDigit = true := ppNum_digits n c0 (by rw [he]; simp)
    rw [show ppArith (.num n) = ppNum n from rfl, he]
    unfold stripCond
    rw [show ((c0 :: t).head? == some '(') = false from by
      simp only [List.head?_cons]
      cases hb : (some c0 == some '(')
      · rfl
      · rw [beq_iff_eq] at hb
        injection hb with hb
        subst hb
        exact absurd hd (by decide)]
    rfl
  | bin o l r =>
    obtain ⟨w, ws, hw⟩ := List.exists_cons_of_ne_nil
      (wrapIf_ne_nil (decide (Arith.level l < o.lvl)) _ (ppArith_ne_nil l))
    have hpp : ppArith (.bin o l r)
        = wrapIf (decide (Arith.level l < o.lvl)) (ppArith l)
          ++ o.char :: wrapIf (decide (Arith.level r < o.lvl + 1)) (ppArith r) := rfl
    by_cases hpar : w = '('
    · subst hpar
      have hbalWL := wrapIf_bal (decide (Arith.level l < o.lvl)) _
        (ppArith_bal l).1 (ppArith_bal l).2
      have h1 : depthAfter ws 1 = 0 := by
        have h2 := hbalWL.2
        rw [hw, depthAfter_cons, show depthStep 0 '(' = 1 from rfl] at h2
        exact h2
      have h0 : depthAfter ws 0 = -1 := by
        have h := depthAfter_add ws 0 1
        rw [show (0 : Int) + 1 = 1 from rfl, h1] at h
        omega
      have hnn : neverNeg ws 0 = false := neverNeg_false_of_neg ws (by omega)
      have he : ppArith (.bin o l r)
          = '(' :: (ws ++ o.char
              :: wrapIf (decide (Arith.level r < o.lvl + 1)) (ppArith r)) := by
        rw [hpp, hw]
        rfl
      have hint : ((ppArith (.bin o l r)).drop 1).dropLast
          = ws ++ (o.char
              :: wrapIf (decide (Arith.level r < o.lvl + 1)) (ppArith r)).dropLast := by
        rw [he, List.drop_one, List.tail_cons, dropLast_append_cons]
      unfold stripCond
      rw [hint, pab_false_left _ _ hnn]
      simp
    · unfold stripCond
      rw [show ((ppArith (.bin o l r)).head? == some '(') = false from by
        rw [hpp, head?_append_left _ _ (by rw [hw]; simp), hw]
        simp only [List.head?_cons]
        cases hb : (some w == some '(')
        · rfl
        · rw [beq_iff_eq] at hb
          injection hb with hb
          exact absurd hb hpar]
      rfl

theorem repAux_id (k : Nat) (e : List Char) (h : stripCond e = false) :
    repAux k e = e := by
  cases k
  · rfl
  · simp [repAux, h]

theorem remove_extra_parens_ppArith (a : Arith) :
    remove_extra_parens (ppArith a) = ppArith a :=
  repAux_id _ _ (stripCond_ppArith a)

theorem exp_check_of_clean (s e : List Char)
    (hpab : parens_are_balanced s = true)
    (hfil : s.filter (fun c => !(c == ' ')) = s)
    (hrem : remove_extra_parens s = e)
    (hne : e ≠ [])
    (hhead : ∀ h, e.head? = some h → (h.isDigit = true ∨ h = '('))
    (hlast : ∀ ch, e.getLast? = some ch → (ch.isDigit = true ∨ ch = ')')) :
    exp_check s = .ok e := by
  obtain ⟨first, rest, rfl⟩ := List.exists_cons_of_ne_nil hne
  have hh := hhead first rfl
  have hfacts : is_operator first = false ∧ (first == '-') = false
      ∧ (first == '+') = false := by
    rcases hh with hd | rfl
    · exact ⟨digit_not_op first hd, digit_ne first '-' hd (by decide),
        digit_ne first '+' hd (by decide)⟩
    · exact ⟨rfl, rfl, rfl⟩
  have hlast' : is_operator (((first :: rest).getLast?).getD ' ') = false := by
    have hgl : (first :: rest).getLast?
        = some ((first :: rest).getLast (by simp)) :=
      List.getLast?_eq_getLast _ (by simp)
    rw [hgl]
    simp only [Option.getD_some]
    rcases hlast _ hgl with hd | hq
    · exact digit_not_op _ hd
    · rw [hq]
      rfl
  unfold exp_check
  rw [if_neg (by simp [hpab]), hfil, hrem]
  show (if is_operator first && !(first == '+') && !(first == '-')
      then Except.error PyErr.malformedExpression
      else if is_operator ((first :: rest).getLastD ' ')
      then Except.error PyErr.malformedExpression
      else if first == '-' then Except.ok ('0' :: first :: rest)
      else if first == '+' then Except.ok rest
      else Except.ok (first :: rest)) = Except.ok (first :: rest)
  rw [if_neg (by simp [hfacts.1]),
    if_neg (by simp [List.getLastD_eq_getLast?, hlast']),
    if_neg (by simp [hfacts.2.1]), if_neg (by simp [hfacts.2.2])]

theorem exp_check_ppArith (a : Arith) : exp_check (ppArith a) = .ok (ppArith a) := by
  refine exp_check_of_clean _ _ (ppArith_pab a) ?_ (remove_extra_parens_ppArith a)
    (ppArith_ne_nil a) (ppArith_head a) (ppArith_last a)
  rw [List.filter_eq_self]
  intro c hc
  rw [ppArith_no_space a c hc]
  rfl

theorem exp_check_wrap (a : Arith) :
    exp_check ('(' :: (ppArith a ++ [')'])) = .ok (ppArith a) := by
  refine exp_check_of_clean _ _ ?_ ?_ ?_ (ppArith_ne_nil a) (ppArith_head a)
    (ppArith_last a)
  · have h := pab_wrap [] (ppArith a) rfl (ppArith_pab a)
    simpa using h
  · rw [List.filter_eq_self]
    intro c hc
    simp at hc
    rcases hc with rfl | hc | rfl
    · rfl
    · rw [ppArith_no_space a c hc]
      rfl
    · rfl
  · have hsc : stripCond ('(' :: (ppArith a ++ [')'])) = true := by
      unfold stripCond
      rw [show ('(' :: (ppArith a ++ [')'])).getLast? = some ')' from by
        rw [show ('(' :: (ppArith a ++ [')'])) = ('(' :: ppArith a) ++ [')']
          from by simp, List.getLast?_concat]]
      rw [show (('(' :: (ppArith a ++ [')'])).drop 1).dropLast = ppArith a from by
        rw [List.drop_one, List.tail_cons, List.dropLast_concat]]
      rw [ppArith_pab a]
      rfl
    unfold remove_extra_parens
    rw [show ('(' :: (ppArith a ++ [')'])).length = ((ppArith a).length + 1) + 1
      from by simp]
    rw [repAux, if_pos hsc]
    rw [show (('(' :: (ppArith a ++ [')'])).drop 1).dropLast = ppArith a from by
      rw [List.drop_one, List.tail_cons, List.dropLast_concat]]
    exact repAux_id _ _ (stripCond_ppArith a)

theorem gf_aux_none_of_starts : ∀ (names : List (List Char)) (e : List Char),
    (∀ nm ∈ names, starts_with (nm ++ ['(']) e = false) →
    get_function_aux names e = none := by
  intro names
  induction names with
  | nil => intro e _; rfl
  | cons f fs ih =>
    intro e h
    simp only [get_function_aux]
    rw [if_neg (by simp [h f (by simp)])]
    exact ih e (fun nm hnm => h nm (by simp [hnm]))

theorem get_function_ppArith (a : Arith) : get_function (ppArith a) = none := by
  obtain ⟨h0, t, he⟩ := List.exists_cons_of_ne_nil (ppArith_ne_nil a)
  have hh := ppArith_head a h0 (by rw [he]; rfl)
  refine gf_aux_none_of_starts FUNCTION_NAMES (ppArith a) ?_
  intro nm hnm
  have hne : ∀ (c0 : Char), c0.isDigit = false → c0 ≠ '(' → ∀ cs : List Char,
      starts_with ((c0 :: cs) ++ ['(']) (ppArith a) = false := by
    intro c0 hd hp cs
    rw [he]
    show starts_with (c0 :: (cs ++ ['('])) (h0 :: t) = false
    simp only [starts_with]
    rw [show (c0 == h0) = false from by
      cases hb : c0 == h0
      · rfl
      · rw [beq_iff_eq] at hb
        subst hb
        rcases hh with hdig | hpq
        · rw [hdig] at hd
          exact absurd hd (by simp)
        · exact absurd hpq hp]
    rfl
  simp [FUNCTION_NAMES] at hnm
  rcases hnm with rfl | rfl | rfl | rfl | rfl | rfl | rfl | rfl | rfl | rfl
    <;> exact hne _ (by decide) (by decide) _

theorem take_append_self (X Y : List Char) : (X ++ Y).take X.length = X := by
  induction X with
  | nil => rfl
  | cons x xs ih => simp [ih]

theorem drop_append_self (X Y : List Char) : (X ++ Y).drop X.length = Y := by
  induction X with
  | nil => rfl
  | cons x xs ih => simp [ih]

theorem buildF_congr (k : Nat) (s1 s2 : List Char)
    (h : exp_check s1 = exp_check s2) : buildF (k + 1) s1 = buildF (k + 1) s2 := by
  simp only [buildF, h]

theorem wrapIf_length (b : Bool) (X : List Char) :
    (wrapIf b X).length = X.length + (if b then 2 else 0) := by
  cases b <;> simp [wrapIf]

theorem buildF_bin_step (n : Nat) (o : Aop) (l r : Arith)
    (hrecL : buildF n (wrapIf (decide (Arith.level l < o.lvl)) (ppArith l))
      = .ok (treeOf l))
    (hrecR : buildF n (wrapIf (decide (Arith.level r < o.lvl + 1)) (ppArith r))
      = .ok (treeOf r)) :
    buildF (n + 1) (ppArith (.bin o l r)) = .ok (treeOf (.bin o l r)) := by
  have hWLne : wrapIf (decide (Arith.level l < o.lvl)) (ppArith l) ≠ [] :=
    wrapIf_ne_nil _ _ (ppArith_ne_nil l)
  have hWRne : wrapIf (decide (Arith.level r < o.lvl + 1)) (ppArith r) ≠ [] :=
    wrapIf_ne_nil _ _ (ppArith_ne_nil r)
  have hbL := wrapIf_bal (decide (Arith.level l < o.lvl)) _
    (ppArith_bal l).1 (ppArith_bal l).2
  have hWLbalp : parens_are_balanced
      (wrapIf (decide (Arith.level l < o.lvl)) (ppArith l)) = true := by
    rw [parens_are_balanced, pabAux_eq, Bool.and_eq_true]
    refine ⟨hbL.1, ?_⟩
    rw [hbL.2]
    rfl
  have hWLlast : ∀ ch,
      (wrapIf (decide (Arith.level l < o.lvl)) (ppArith l)).getLast? = some ch →
      is_operator ch = false := by
    intro ch hch
    cases hb : decide (Arith.level l < o.lvl) with
    | false =>
      rw [hb] at hch
      rcases ppArith_last l ch hch with hd | hq
      · exact digit_not_op ch hd
      · rw [hq]
        rfl
    | true =>
      rw [hb] at hch
      simp only [wrapIf, if_pos] at hch
      rw [show ('(' :: (ppArith l ++ [')'])) = ('(' :: ppArith l) ++ [')']
        from by simp, List.getLast?_concat] at hch
      injection hch with hch
      rw [← hch]
      rfl
  have hGE : topOpsGE (OPERATOR_PRIORITY o.char)
      (wrapIf (decide (Arith.level l < o.lvl)) (ppArith l)) 0 = true := by
    rw [Aop.char_prio]
    exact ppArith_topGE_ctx l o.lvl (Aop.lvl_pos o)
  have hGT : topOpsGT (OPERATOR_PRIORITY o.char)
      (wrapIf (decide (Arith.level r < o.lvl + 1)) (ppArith r)) 0 = true := by
    rw [Aop.char_prio]
    exact topOpsGT_of_GE _ _ _ _ (Aop.prio_lt_succ o)
      (ppArith_topGE_ctx r (o.lvl + 1) (by omega))
  have hlto : lookup_top_operator (ppArith (.bin o l r))
      = ((wrapIf (decide (Arith.level l < o.lvl)) (ppArith l)).length : Int) :=
    lto_split _ _ _ (Aop.char_op o) hWLne hWRne hWLbalp hWLlast hGE hGT
  simp only [buildF]
  rw [exp_check_ppArith (.bin o l r)]
  dsimp only
  rw [get_function_ppArith (.bin o l r)]
  dsimp only
  rw [hlto]
  rw [if_pos (by omega :
    (0 : Int) ≤ ((wrapIf (decide (Arith.level l < o.lvl)) (ppArith l)).length : Int))]
  rw [show ((((wrapIf (decide (Arith.level l < o.lvl)) (ppArith l)).length : Nat)
      : Int)).toNat
    = (wrapIf (decide (Arith.level l < o.lvl)) (ppArith l)).length from by omega]
  rw [show ppArith (.bin o l r)
      = wrapIf (decide (Arith.level l < o.lvl)) (ppArith l)
        ++ o.char :: wrapIf (decide (Arith.level r < o.lvl + 1)) (ppArith r)
    from rfl]
  rw [take_append_self]
  rw [drop_cons_succ _ _ _ _ (drop_append_self _ _)]
  rw [getD_boundary]
  rw [hrecL, hrecR]
  rfl

theorem buildF_ppArith : ∀ (n : Nat) (a : Arith), (ppArith a).length < n →
    buildF n (ppArith a) = .ok (treeOf a) := by
  intro n
  induction n with
  | zero =>
    intro a h
    exact absurd h (by omega)
  | succ n ih =>
    intro a hlen
    cases a with
    | num m =>
      simp only [buildF]
      rw [exp_check_ppArith (.num m)]
      dsimp only
      rw [get_function_ppArith (.num m)]
      dsimp only
      rw [show lookup_top_operator (ppArith (.num m)) = -1 from
        lookup_no_ops _ (fun c hc => digit_not_op c (ppNum_digits m c hc))]
      rw [if_neg (by omega)]
      rfl
    | bin o l r =>
      have hstruct : (ppArith (.bin o l r)).length
          = (wrapIf (decide (Arith.level l < o.lvl)) (ppArith l)).length + 1
            + (wrapIf (decide (Arith.level r < o.lvl + 1)) (ppArith r)).length := by
        show (_ ++ o.char :: _).length = _
        simp only [List.length_append, List.length_cons]
        omega
      have hWR1 : 1 ≤ (wrapIf (decide (Arith.level r < o.lvl + 1)) (ppArith r)).length :=
        List.length_pos.mpr (wrapIf_ne_nil _ _ (ppArith_ne_nil r))
      have hWL1 : 1 ≤ (wrapIf (decide (Arith.level l < o.lvl)) (ppArith l)).length :=
        List.length_pos.mpr (wrapIf_ne_nil _ _ (ppArith_ne_nil l))
      refine buildF_bin_step n o l r ?_ ?_
      · cases hb : decide (Arith.level l < o.lvl) with
        | false =>
          have hlL : (wrapIf (decide (Arith.level l < o.lvl)) (ppArith l)).length
              = (ppArith l).length := by
            rw [hb]
            simp [wrapIf]
          show buildF n (ppArith l) = _
          exact ih l (by omega)
        | true =>
          have hlL : (wrapIf (decide (Arith.level l < o.lvl)) (ppArith l)).length
              = (ppArith l).length + 2 := by
            rw [hb]
            simp [wrapIf]
          show buildF n ('(' :: (ppArith l ++ [')'])) = _
          cases n with
          | zero => exact absurd hlen (by omega)
          | succ n' =>
            rw [buildF_congr n' ('(' :: (ppArith l ++ [')'])) (ppArith l)
              (by rw [exp_check_wrap l, exp_check_ppArith l])]
            exact ih l (by omega)
      · cases hb : decide (Arith.level r < o.lvl + 1) with
        | false =>
          have hlR : (wrapIf (decide (Arith.level r < o.lvl + 1)) (ppArith r)).length
              = (ppArith r).length := by
            rw [hb]
            simp [wrapIf]
          show buildF n (ppArith r) = _
          exact ih r (by omega)
        | true =>
          have hlR : (wrapIf (decide (Arith.level r < o.lvl + 1)) (ppArith r)).length
              = (ppArith r).length + 2 := by
            rw [hb]
            simp [wrapIf]
          show buildF n ('(' :: (ppArith r ++ [')'])) = _
          cases n with
          | zero => exact absurd hlen (by omega)
          | succ n' =>
            rw [buildF_congr n' ('(' :: (ppArith r ++ [')'])) (ppArith r)
              (by rw [exp_check_wrap r, exp_check_ppArith r])]
            exact ih r (by omega)

theorem build_ppArith (a : Arith) : build (ppArith a) = .ok (treeOf a) :=
  buildF_ppArith ((ppArith a).length + 1) a (by omega)

theorem evaluate_operator_denote (o : Aop) (x y : ℚ) :
    evaluate_operator o.char x y = o.denote x y := by
  cases o <;> simp [Aop.char, Aop.denote, evaluate_operator]

theorem eval_treeOf (M : MathLib) (table : List (List Char × ℚ)) :
    ∀ a : Arith, Tree.evaluate M table (treeOf a) = Arith.eval a := by
  intro a
  induction a with
  | num n =>
    show (if is_number (ppNum n) = true then Except.ok (parse_float (ppNum n))
        else _) = _
    rw [if_pos (is_number_ppNum n), parse_float_ppNum]
    rfl
  | bin o l r ihl ihr =>
    show (match Tree.evaluate M table (treeOf l) with
      | Except.error e => Except.error e
      | Except.ok x =>
        match Tree.evaluate M table (treeOf r) with
        | Except.error e => Except.error e
        | Except.ok y => evaluate_operator o.char x y) = _
    rw [ihl, ihr]
    show _ = (match Arith.eval l with
      | Except.error e => Except.error e
      | Except.ok x =>
        match Arith.eval r with
        | Except.error e => Except.error e
        | Except.ok y => o.denote x y)
    cases Arith.eval l with
    | error e => rfl
    | ok x =>
      cases Arith.eval r with
      | error e => rfl
      | ok y =>
        show evaluate_operator o.char x y = o.denote x y
        exact evaluate_operator_denote o x y

/-- Claim C1: for every balanced-parenthesis string denoting an operator
chain (any expression formed from numeric literals, the five binary
operators and precedence-respecting parenthesisation, as rendered by
`ppArith`), constructing the tree and evaluating it agrees with
standard operator-precedence arithmetic, i.e. with evaluating the
reference abstract syntax tree; in particular `"2+3*4"` evaluates to
`14` and `"(2+3)*4"` to `20`. -/
theorem claim_C1 :
    (∀ (M : MathLib) (a : Arith),
        parens_are_balanced (ppArith a) = true
        ∧ eval_with M (ppArith a) none = Arith.eval a)
    ∧ eval_with zeroLib "2+3*4".toList none = .ok 14
    ∧ eval_with zeroLib "(2+3)*4".toList none = .ok 20 := by
  refine ⟨?_, by decide, by decide⟩
  intro M a
  refine ⟨ppArith_pab a, ?_⟩
  unfold eval_with mathexp
  rw [build_ppArith a]
  show Tree.evaluate M [] (treeOf a) = Arith.eval a
  exact eval_treeOf M [] a

end Mathexp
